import Mathlib

/-!
Verification of the settlement arithmetic core of the xpnz expense-splitting
API (`src/common.mjs` and the request-handling file `src/unnamed/part_001`).

Embedding conventions:
* Money amounts are integer cents, modelled as `ℤ`; weights are JS numbers,
  modelled as exact rationals `ℚ`.
* A JS number that is not finite (the `NaN` produced by `0/0` when every
  weight is zero) is modelled as `none : Option ℚ` / `none : Option ℤ`;
  `none` propagates through multiplication, `Math.floor` and `_.sum`, and
  fails every `> 0` comparison, exactly as `NaN` does.
* The seeded pseudo-random generator (`seedrandom`) is abstracted as a
  stream `draws : ℕ → ℕ` of arbitrary non-negative integers; the Fisher–Yates
  shuffle consumes `draws i % (i + 1)`, covering every value `Math.floor
  (random () * (i + 1))` can take.  Theorems quantify over every stream,
  hence over every seed.
* JS exceptions are modelled with `Except`; the bounded `fuel` argument of
  `distNonzero` makes the while-loop structurally recursive, and the
  theorems prove the chosen fuel is never exhausted on the stated inputs.
-/

namespace Xpnz

/-- JS division for the expression `weight / totalWeight`: division by zero
yields a non-finite JS number (`0/0` is `NaN`), modelled as `none`. -/
def jsDiv (a b : ℚ) : Option ℚ :=
  if b = 0 then none else some (a / b)

/-- `_.sum` over an array that may contain non-finite entries: any `NaN`
poisons the total.  `_.sum []` is `0`. -/
def jsSum : List (Option ℤ) → Option ℤ
  | [] => some 0
  | o :: rest =>
    match o with
    | none => none
    | some x =>
      match jsSum rest with
      | none => none
      | some s => some (x + s)

/-- `result[j]++` on a JS array: incrementing `NaN` leaves `NaN`;
an out-of-range index leaves the array unchanged. -/
def bump (result : List (Option ℤ)) (j : ℕ) : List (Option ℤ) :=
  result.set j ((result.getD j none).map (fun z => z + 1))

/-- The destructuring swap `[array[i], array[j]] = [array[j], array[i]]`. -/
def swap (l : List α) (i j : ℕ) : List α :=
  match l.get? i, l.get? j with
  | some a, some b => (l.set i b).set j a
  | _, _ => l

/-- The body of `shuffle`'s `for` loop, indexed by the loop variable `i`
counting down; `draws i % (i + 1)` models `Math.floor (random () * (i + 1))`. -/
def shuffleAux (draws : ℕ → ℕ) : ℕ → List α → List α
  | 0, arr => arr
  | i + 1, arr => shuffleAux draws i (swap arr (i + 1) (draws (i + 1) % (i + 2)))

/-- `shuffle (array, random)` from `src/common.mjs`: Fisher–Yates from
`array.length - 1` down to `1`. -/
def shuffle (arr : List α) (draws : ℕ → ℕ) : List α :=
  shuffleAux draws (arr.length - 1) arr

/-- `rawShares = weights.map (weight => (weight / totalWeight) * totalAmount)`. -/
def rawShares (totalAmount : ℤ) (weights : List ℚ) : List (Option ℚ) :=
  weights.map fun w => (jsDiv w weights.sum).map fun q => q * (totalAmount : ℚ)

/-- `flooredShares = rawShares.map (Math.floor)`. -/
def flooredShares (totalAmount : ℤ) (weights : List ℚ) : List (Option ℤ) :=
  (rawShares totalAmount weights).map (Option.map Rat.floor)

/-- `indices = weights.map ((_, index) => index)` followed by
`shuffle (indices, random)`. -/
def indicesOf (weights : List ℚ) (draws : ℕ → ℕ) : List ℕ :=
  shuffle (List.range weights.length) draws

/-- The `flooredTotal === 0` branch of `integerSplitByWeights`:
`for (let i = 0; remainder > 0; i = (i + 1) % indices.length) {
   result[indices[i]]++; remainder--; }`. -/
def roundRobin (indices : List ℕ) (i : ℕ) (result : List (Option ℤ)) (r : ℤ) :
    List (Option ℤ) :=
  if h : 0 < r then
    roundRobin indices ((i + 1) % indices.length) (bump result (indices.getD i 0)) (r - 1)
  else result
termination_by r.toNat
decreasing_by omega

/-- The other branch: distribute the remainder only to the non-zero shares,
checking `result.every (share => share === 0)` after each iteration (the
`Assertion failed` throw).  `fuel` bounds the number of iterations; the
correctness theorems prove the fuel passed by `integerSplitByWeights` is
never exhausted for the inputs they cover. -/
def distNonzero (indices : List ℕ) :
    ℕ → ℕ → List (Option ℤ) → ℤ → Except String (List (Option ℤ))
  | 0, _, result, r =>
    if 0 < r then Except.error "fuel exhausted" else Except.ok result
  | fuel + 1, i, result, r =>
    if 0 < r then
      let j := indices.getD i 0
      if result.getD j none ≠ some 0 then
        let result1 := bump result j
        if result1.all fun share => share == some 0 then
          Except.error "Assertion failed: all shares are zero."
        else
          distNonzero indices fuel ((i + 1) % indices.length) result1 (r - 1)
      else
        if result.all fun share => share == some 0 then
          Except.error "Assertion failed: all shares are zero."
        else
          distNonzero indices fuel ((i + 1) % indices.length) result r
    else Except.ok result

/-- `integerSplitByWeights (totalAmount, weights, seed)` from
`src/common.mjs`.  The seeded generator is abstracted as the stream
`draws`; when the floored total is `NaN` (all-zero weights) the remainder
is `NaN`, neither loop's `remainder > 0` guard ever passes, and the
NaN-polluted floored shares are returned unchanged. -/
def integerSplitByWeights (totalAmount : ℤ) (weights : List ℚ) (draws : ℕ → ℕ) :
    Except String (List (Option ℤ)) :=
  let result := flooredShares totalAmount weights
  let indices := indicesOf weights draws
  match jsSum result with
  | none => Except.ok result
  | some flooredTotal =>
    let remainder := totalAmount - flooredTotal
    if flooredTotal = 0 then
      Except.ok (roundRobin indices 0 result remainder)
    else
      distNonzero indices (weights.length * remainder.toNat + weights.length + 1)
        0 result remainder

/-- Lists of genuine (finite) integer shares, viewed as JS arrays. -/
def liftZ (s : List ℤ) : List (Option ℤ) :=
  s.map some

/-- `result[j]++` on an array of finite integers. -/
def bumpZ (s : List ℤ) (j : ℕ) : List ℤ :=
  s.set j (s.getD j 0 + 1)

section ShufflePerm

variable {α : Type _}

lemma swap_perm [DecidableEq α] (l : List α) (i j : ℕ) : (swap l i j).Perm l := by
  unfold swap
  cases hi : l.get? i with
  | none => exact List.Perm.refl l
  | some a =>
    cases hj : l.get? j with
    | none => exact List.Perm.refl l
    | some b =>
      rw [List.get?_eq_getElem?] at hi hj
      obtain ⟨hilt, hia⟩ := List.getElem?_eq_some_iff.mp hi
      obtain ⟨hjlt, hjb⟩ := List.getElem?_eq_some_iff.mp hj
      rw [List.perm_iff_count]
      intro x
      show List.count x ((l.set i b).set j a) = List.count x l
      have hjlt' : j < (l.set i b).length := by simpa using hjlt
      rw [List.count_set a x _ _ hjlt', List.count_set b x _ _ hilt]
      rw [List.getElem_set, hia]
      have hjb2 : (if i = j then b else l[j]) = b := by
        by_cases hij : i = j <;> simp [hij, hjb]
      rw [hjb2]
      have hmem : a ∈ l := hia ▸ List.getElem_mem hilt
      by_cases hax : a = x
      · have hpos : 0 < List.count x l := List.count_pos_iff.mpr (hax ▸ hmem)
        by_cases hbx : b = x <;> simp [hax, hbx] <;> omega
      · by_cases hbx : b = x <;> simp [hax, hbx]

lemma shuffleAux_perm [DecidableEq α] (draws : ℕ → ℕ) :
    ∀ (k : ℕ) (arr : List α), (shuffleAux draws k arr).Perm arr := by
  intro k
  induction k with
  | zero => intro arr; exact List.Perm.refl arr
  | succ i ih =>
    intro arr
    exact (ih _).trans (swap_perm arr (i + 1) (draws (i + 1) % (i + 2)))

lemma shuffle_perm [DecidableEq α] (arr : List α) (draws : ℕ → ℕ) :
    (shuffle arr draws).Perm arr :=
  shuffleAux_perm draws (arr.length - 1) arr

end ShufflePerm

section IndicesFacts

lemma indicesOf_perm (weights : List ℚ) (draws : ℕ → ℕ) :
    (indicesOf weights draws).Perm (List.range weights.length) :=
  shuffle_perm _ draws

lemma indicesOf_length (weights : List ℚ) (draws : ℕ → ℕ) :
    (indicesOf weights draws).length = weights.length := by
  simpa using (indicesOf_perm weights draws).length_eq

lemma indicesOf_nodup (weights : List ℚ) (draws : ℕ → ℕ) :
    (indicesOf weights draws).Nodup :=
  (indicesOf_perm weights draws).nodup_iff.mpr (List.nodup_range _)

lemma indicesOf_getD_lt (weights : List ℚ) (draws : ℕ → ℕ)
    (hn : 0 < weights.length) (p : ℕ) :
    (indicesOf weights draws).getD p 0 < weights.length := by
  rw [List.getD_eq_getElem?_getD]
  cases hp : (indicesOf weights draws)[p]? with
  | none => simpa using hn
  | some v =>
    obtain ⟨hlt, hv⟩ := List.getElem?_eq_some_iff.mp hp
    have hmem : v ∈ indicesOf weights draws := hv ▸ List.getElem_mem hlt
    have := ((indicesOf_perm weights draws).mem_iff).mp hmem
    simpa using List.mem_range.mp this

lemma indicesOf_cover (weights : List ℚ) (draws : ℕ → ℕ) (j : ℕ)
    (hj : j < weights.length) :
    ∃ p, p < weights.length ∧ (indicesOf weights draws).getD p 0 = j := by
  have hmem : j ∈ indicesOf weights draws :=
    ((indicesOf_perm weights draws).mem_iff).mpr (List.mem_range.mpr hj)
  obtain ⟨p, hp, hv⟩ := List.mem_iff_getElem.mp hmem
  refine ⟨p, by simpa [indicesOf_length] using hp, ?_⟩
  rw [List.getD_eq_getElem?_getD, List.getElem?_eq_getElem hp]
  simpa using hv

end IndicesFacts

section LiftBump

lemma jsSum_liftZ (s : List ℤ) : jsSum (liftZ s) = some s.sum := by
  induction s with
  | nil => rfl
  | cons x xs ih =>
    show jsSum (some x :: liftZ xs) = some (x + xs.sum)
    rw [jsSum, ih]

lemma liftZ_length (s : List ℤ) : (liftZ s).length = s.length := by
  simp [liftZ]

lemma liftZ_getD (s : List ℤ) (j : ℕ) (h : j < s.length) :
    (liftZ s).getD j none = some (s.getD j 0) := by
  rw [List.getD_eq_getElem?_getD, List.getD_eq_getElem?_getD]
  simp [liftZ, List.getElem?_map, List.getElem?_eq_getElem h]

lemma bump_liftZ (s : List ℤ) (j : ℕ) : bump (liftZ s) j = liftZ (bumpZ s j) := by
  unfold bump bumpZ
  by_cases h : j < s.length
  · rw [liftZ_getD s j h]
    show (s.map some).set j (some (s.getD j 0 + 1)) = (s.set j (s.getD j 0 + 1)).map some
    rw [List.map_set]
  · have h1 : s.length ≤ j := le_of_not_lt h
    rw [List.set_eq_of_length_le (by simpa [liftZ] using h1),
      List.set_eq_of_length_le h1]

lemma bumpZ_length (s : List ℤ) (j : ℕ) : (bumpZ s j).length = s.length := by
  simp [bumpZ]

lemma sum_drop_eq (s : List ℤ) (j : ℕ) (h : j < s.length) :
    (s.drop j).sum = s.getD j 0 + (s.drop (j + 1)).sum := by
  rw [List.drop_eq_getElem_cons h, List.sum_cons, List.getD_eq_getElem?_getD,
    List.getElem?_eq_getElem h]
  rfl

lemma bumpZ_sum (s : List ℤ) (j : ℕ) (h : j < s.length) :
    (bumpZ s j).sum = s.sum + 1 := by
  have hsplit : s.sum = (s.take j).sum + (s.drop j).sum := by
    rw [← List.sum_append, List.take_append_drop]
  rw [bumpZ, List.sum_set, sum_drop_eq s j h] at *
  simp only [h, if_pos]
  omega

lemma bumpZ_getD_ne (s : List ℤ) (j k : ℕ) (hk : j ≠ k) :
    (bumpZ s j).getD k 0 = s.getD k 0 := by
  rw [bumpZ]
  simp [List.getD_eq_getElem?_getD, List.getElem?_set_ne hk]

lemma bumpZ_getD_self (s : List ℤ) (j : ℕ) (h : j < s.length) :
    (bumpZ s j).getD j 0 = s.getD j 0 + 1 := by
  rw [bumpZ, List.getD_eq_getElem?_getD, List.getElem?_set_self h]
  rfl

lemma getD_eq_getElem_of_lt {α : Type _} (s : List α) {d : α} (j : ℕ)
    (h : j < s.length) : s.getD j d = s[j] := by
  rw [List.getD_eq_getElem?_getD, List.getElem?_eq_getElem h]
  rfl

/-- A list of integers with a nonzero sum has a nonzero entry. -/
lemma exists_ne_zero_of_sum_ne_zero (s : List ℤ) (h : s.sum ≠ 0) :
    ∃ j, j < s.length ∧ s.getD j 0 ≠ 0 := by
  by_contra hall
  push_neg at hall
  apply h
  apply List.sum_eq_zero
  intro x hx
  obtain ⟨j, hj, hv⟩ := List.mem_iff_getElem.mp hx
  have h0 := hall j hj
  rw [getD_eq_getElem_of_lt s j hj, hv] at h0
  exact h0

/-- A list of non-negative integers with a positive sum has a positive entry. -/
lemma exists_pos_entry (s : List ℤ) (hnn : ∀ x ∈ s, 0 ≤ x) (h : 0 < s.sum) :
    ∃ j, j < s.length ∧ 0 < s.getD j 0 := by
  obtain ⟨j, hj, hne⟩ := exists_ne_zero_of_sum_ne_zero s (by omega)
  refine ⟨j, hj, ?_⟩
  have hmem : s.getD j 0 ∈ s := by
    rw [getD_eq_getElem_of_lt s j hj]
    exact List.getElem_mem hj
  have := hnn _ hmem
  omega

/-- A list of integers with a negative sum has a negative entry. -/
lemma exists_neg_entry (s : List ℤ) (h : s.sum < 0) :
    ∃ j, j < s.length ∧ s.getD j 0 < 0 := by
  by_contra hall
  push_neg at hall
  have : 0 ≤ s.sum := by
    apply List.sum_nonneg
    intro x hx
    obtain ⟨j, hj, hv⟩ := List.mem_iff_getElem.mp hx
    have h0 := hall j hj
    rw [getD_eq_getElem_of_lt s j hj, hv] at h0
    exact h0
  omega

end LiftBump

section RoundRobinLemmas

lemma roundRobin_nonpos (indices : List ℕ) (i : ℕ) (result : List (Option ℤ))
    (r : ℤ) (h : ¬ 0 < r) : roundRobin indices i result r = result := by
  rw [roundRobin]
  simp [h]

lemma roundRobin_pos (indices : List ℕ) (i : ℕ) (result : List (Option ℤ))
    (r : ℤ) (h : 0 < r) :
    roundRobin indices i result r =
      roundRobin indices ((i + 1) % indices.length)
        (bump result (indices.getD i 0)) (r - 1) := by
  rw [roundRobin]
  simp [h]

/-- How many of the first `r` round-robin steps starting at cyclic position
`i` land on index `j`. -/
def rrCount (indices : List ℕ) : ℕ → ℕ → ℕ → ℕ
  | _, 0, _ => 0
  | i, r + 1, j =>
    (if indices.getD i 0 = j then 1 else 0) +
      rrCount indices ((i + 1) % indices.length) r j

/-- The round-robin loop on a finite-integer array adds `rrCount` visits to
every index and `max r 0` units in total. -/
lemma roundRobin_liftZ (indices : List ℕ) :
    ∀ (k : ℕ) (r : ℤ), r.toNat = k → ∀ (i : ℕ) (s : List ℤ),
    (∀ p, indices.getD p 0 < s.length) →
    ∃ out : List ℤ,
      roundRobin indices i (liftZ s) r = liftZ out ∧
      out.length = s.length ∧
      out.sum = s.sum + max r 0 ∧
      ∀ j, out.getD j 0 = s.getD j 0 + rrCount indices i r.toNat j := by
  intro k
  induction k with
  | zero =>
    intro r hr i s hlt
    have hr0 : ¬ 0 < r := by omega
    refine ⟨s, roundRobin_nonpos indices i (liftZ s) r hr0, rfl, by omega, ?_⟩
    intro j
    rw [hr]
    simp [rrCount]
  | succ k ih =>
    intro r hr i s hlt
    have hr0 : 0 < r := by omega
    rw [roundRobin_pos indices i (liftZ s) r hr0, bump_liftZ]
    have hlt' : ∀ p, indices.getD p 0 < (bumpZ s (indices.getD i 0)).length := by
      intro p
      rw [bumpZ_length]
      exact hlt p
    obtain ⟨out, heq, hlen, hsum, hgetD⟩ :=
      ih (r - 1) (by omega) ((i + 1) % indices.length) (bumpZ s (indices.getD i 0)) hlt'
    refine ⟨out, heq, by rw [hlen, bumpZ_length], ?_, ?_⟩
    · rw [hsum, bumpZ_sum s _ (hlt i)]
      omega
    · intro j
      rw [hgetD j, hr]
      rw [rrCount]
      have hrk : (r - 1).toNat = k := by omega
      rw [hrk]
      by_cases hij : indices.getD i 0 = j
      · rw [hij, bumpZ_getD_self s j (hij ▸ hlt i), if_pos rfl]
        omega
      · rw [bumpZ_getD_ne s _ j hij, if_neg hij]
        omega

end RoundRobinLemmas

section RrCountClosed

variable (indices : List ℕ)

lemma rrCount_add (hn : 0 < indices.length) :
    ∀ (a i : ℕ), i < indices.length → ∀ (b j : ℕ),
      rrCount indices i (a + b) j =
        rrCount indices i a j +
          rrCount indices ((i + a) % indices.length) b j := by
  intro a
  induction a with
  | zero =>
    intro i hi b j
    rw [Nat.zero_add, Nat.add_zero, Nat.mod_eq_of_lt hi]
    simp [rrCount]
  | succ a iha =>
    intro i hi b j
    have hab : (a + 1) + b = (a + b) + 1 := by omega
    rw [hab]
    simp only [rrCount]
    rw [iha ((i + 1) % indices.length) (Nat.mod_lt _ hn) b j]
    have hpos : ((i + 1) % indices.length + a) % indices.length =
        (i + (a + 1)) % indices.length := by
      rw [Nat.mod_add_mod]
      congr 1
      omega
    rw [hpos]
    omega

lemma rrCount_in_range (hnd : indices.Nodup) :
    ∀ (s i : ℕ), i + s ≤ indices.length → ∀ (p : ℕ), p < indices.length →
      ∀ (j : ℕ), indices.getD p 0 = j →
      rrCount indices i s j = if i ≤ p ∧ p < i + s then 1 else 0 := by
  intro s
  induction s with
  | zero =>
    intro i hi p hp j hj
    simp only [rrCount]
    split_ifs with hc
    · omega
    · rfl
  | succ s ihs =>
    intro i his p hp j hj
    have hi : i < indices.length := by omega
    simp only [rrCount]
    have hij : (indices.getD i 0 = j) ↔ (i = p) := by
      constructor
      · intro h
        have h1 : indices[i] = indices[p] := by
          rw [← getD_eq_getElem_of_lt indices i hi,
            ← getD_eq_getElem_of_lt indices p hp, h, hj]
        exact (hnd.getElem_inj_iff).mp h1
      · intro h
        rw [h, hj]
    by_cases hend : i + 1 = indices.length
    · have hs0 : s = 0 := by omega
      subst hs0
      have h0 : (i + 1) % indices.length = 0 := by rw [hend, Nat.mod_self]
      rw [h0]
      simp only [rrCount, hij]
      split_ifs <;> omega
    · have hlt2 : i + 1 < indices.length := by omega
      rw [Nat.mod_eq_of_lt hlt2, ihs (i + 1) (by omega) p hp j hj]
      simp only [hij]
      split_ifs <;> omega

lemma rrCount_cycle (hn : 0 < indices.length) (hnd : indices.Nodup)
    (i p j : ℕ) (hi : i < indices.length) (hp : p < indices.length)
    (hj : indices.getD p 0 = j) :
    rrCount indices i indices.length j = 1 := by
  have hsplit : indices.length = (indices.length - i) + i := by omega
  conv_lhs => rw [hsplit]
  rw [rrCount_add indices hn (indices.length - i) i hi i j]
  have hwrap : (i + (indices.length - i)) % indices.length = 0 := by
    have : i + (indices.length - i) = indices.length := by omega
    rw [this, Nat.mod_self]
  rw [hwrap]
  rw [rrCount_in_range indices hnd (indices.length - i) i (by omega) p hp j hj]
  rw [rrCount_in_range indices hnd i 0 (by omega) p hp j hj]
  split_ifs <;> omega

lemma rrCount_mul (hn : 0 < indices.length) (hnd : indices.Nodup)
    (i p j : ℕ) (hi : i < indices.length) (hp : p < indices.length)
    (hj : indices.getD p 0 = j) :
    ∀ q, rrCount indices i (q * indices.length) j = q := by
  intro q
  induction q with
  | zero => simp [rrCount]
  | succ q ihq =>
    have hq : (q + 1) * indices.length = indices.length + q * indices.length := by
      ring
    rw [hq, rrCount_add indices hn indices.length i hi (q * indices.length) j]
    have hpos : (i + indices.length) % indices.length = i := by
      rw [Nat.add_mod_right, Nat.mod_eq_of_lt hi]
    rw [hpos, rrCount_cycle indices hn hnd i p j hi hp hj, ihq]
    omega

lemma rrCount_closed (hn : 0 < indices.length) (hnd : indices.Nodup)
    (p j : ℕ) (hp : p < indices.length) (hj : indices.getD p 0 = j) (r : ℕ) :
    rrCount indices 0 r j =
      r / indices.length + if p < r % indices.length then 1 else 0 := by
  have h1 : (r / indices.length) * indices.length + r % indices.length = r := by
    rw [mul_comm]
    exact Nat.div_add_mod r indices.length
  conv_lhs => rw [← h1]
  rw [rrCount_add indices hn ((r / indices.length) * indices.length) 0 hn
    (r % indices.length) j]
  rw [rrCount_mul indices hn hnd 0 p j hn hp hj (r / indices.length)]
  have hzero : (0 + (r / indices.length) * indices.length) % indices.length = 0 := by
    rw [Nat.zero_add, Nat.mul_mod_left]
  rw [hzero]
  rw [rrCount_in_range indices hnd (r % indices.length) 0
    (by have := Nat.mod_lt r hn; omega) p hp j hj]
  split_ifs <;> omega

end RrCountClosed

section DistToLemmas

/-- Cyclic distance from position `i` to the first position (searching at
most `k` steps) whose current share is nonzero. -/
def distTo (indices : List ℕ) (shares : List ℤ) : ℕ → ℕ → Option ℕ
  | _, 0 => none
  | i, k + 1 =>
    if shares.getD (indices.getD i 0) 0 ≠ 0 then some 0
    else (distTo indices shares ((i + 1) % indices.length) k).map (fun d => d + 1)

variable (indices : List ℕ) (shares : List ℤ)

lemma distTo_lt : ∀ (k i d : ℕ), distTo indices shares i k = some d → d < k := by
  intro k
  induction k with
  | zero => intro i d h; simp [distTo] at h
  | succ k ihk =>
    intro i d h
    simp only [distTo] at h
    by_cases hc : shares.getD (indices.getD i 0) 0 ≠ 0
    · rw [if_pos hc] at h
      have : d = 0 := by simpa using h.symm
      omega
    · rw [if_neg hc] at h
      cases hrec : distTo indices shares ((i + 1) % indices.length) k with
      | none => rw [hrec] at h; simp at h
      | some d0 =>
        rw [hrec] at h
        have hd : d = d0 + 1 := by simpa using h.symm
        have := ihk _ _ hrec
        omega

lemma distTo_mono : ∀ (k i d : ℕ), distTo indices shares i k = some d →
    distTo indices shares i (k + 1) = some d := by
  intro k
  induction k with
  | zero => intro i d h; simp [distTo] at h
  | succ k ihk =>
    intro i d h
    simp only [distTo] at h
    rw [distTo]
    by_cases hc : shares.getD (indices.getD i 0) 0 ≠ 0
    · rw [if_pos hc] at h ⊢; exact h
    · rw [if_neg hc] at h ⊢
      cases hrec : distTo indices shares ((i + 1) % indices.length) k with
      | none => rw [hrec] at h; simp at h
      | some d0 =>
        rw [hrec] at h
        rw [ihk _ _ hrec]
        exact h

lemma distTo_none (hn : 0 < indices.length) :
    ∀ (k i : ℕ), i < indices.length → distTo indices shares i k = none →
      ∀ t, t < k →
        shares.getD (indices.getD ((i + t) % indices.length) 0) 0 = 0 := by
  intro k
  induction k with
  | zero => intro i hi h t ht; omega
  | succ k ihk =>
    intro i hi h t ht
    simp only [distTo] at h
    by_cases hc : shares.getD (indices.getD i 0) 0 ≠ 0
    · rw [if_pos hc] at h; simp at h
    · rw [if_neg hc] at h
      push_neg at hc
      cases hrec : distTo indices shares ((i + 1) % indices.length) k with
      | some d0 => rw [hrec] at h; simp at h
      | none =>
        cases t with
        | zero => rw [Nat.add_zero, Nat.mod_eq_of_lt hi]; exact hc
        | succ t' =>
          have hrec2 := ihk ((i + 1) % indices.length) (Nat.mod_lt _ hn) hrec t'
            (by omega)
          have hp : ((i + 1) % indices.length + t') % indices.length =
              (i + (t' + 1)) % indices.length := by
            rw [Nat.mod_add_mod]
            congr 1
            omega
          rw [hp] at hrec2
          exact hrec2

lemma distTo_found (hn : 0 < indices.length) (i : ℕ) (hi : i < indices.length)
    (hq : ∃ q, q < indices.length ∧ shares.getD (indices.getD q 0) 0 ≠ 0) :
    ∃ d, distTo indices shares i indices.length = some d := by
  cases hd : distTo indices shares i indices.length with
  | some d => exact ⟨d, rfl⟩
  | none =>
    obtain ⟨q, hq1, hq2⟩ := hq
    exfalso
    rcases le_or_lt i q with hle | hlt
    · have h0 := distTo_none indices shares hn _ i hi hd (q - i) (by omega)
      have ht : (i + (q - i)) % indices.length = q := by
        have he : i + (q - i) = q := by omega
        rw [he, Nat.mod_eq_of_lt hq1]
      rw [ht] at h0
      exact hq2 h0
    · have h0 := distTo_none indices shares hn _ i hi hd
        (q + indices.length - i) (by omega)
      have ht : (i + (q + indices.length - i)) % indices.length = q := by
        have he : i + (q + indices.length - i) = q + indices.length := by omega
        rw [he, Nat.add_mod_right, Nat.mod_eq_of_lt hq1]
      rw [ht] at h0
      exact hq2 h0

lemma distTo_succ_zero (k i : ℕ)
    (h : distTo indices shares i (k + 1) = some 0) :
    shares.getD (indices.getD i 0) 0 ≠ 0 := by
  simp only [distTo] at h
  by_cases hc : shares.getD (indices.getD i 0) 0 ≠ 0
  · exact hc
  · rw [if_neg hc] at h
    cases hrec : distTo indices shares ((i + 1) % indices.length) k with
    | none => rw [hrec] at h; simp at h
    | some d0 => rw [hrec] at h; simp at h

lemma distTo_succ_pos (k i d : ℕ)
    (h : distTo indices shares i (k + 1) = some (d + 1)) :
    shares.getD (indices.getD i 0) 0 = 0 ∧
      distTo indices shares ((i + 1) % indices.length) k = some d := by
  simp only [distTo] at h
  by_cases hc : shares.getD (indices.getD i 0) 0 ≠ 0
  · rw [if_pos hc] at h; simp at h
  · rw [if_neg hc] at h
    push_neg at hc
    refine ⟨hc, ?_⟩
    cases hrec : distTo indices shares ((i + 1) % indices.length) k with
    | none => rw [hrec] at h; simp at h
    | some d0 =>
      rw [hrec] at h
      have : d0 + 1 = d + 1 := by simpa using h
      have hd : d0 = d := by omega
      rw [← hd]

end DistToLemmas

section AllZeroCheck

lemma liftZ_not_all_zero (s : List ℤ)
    (h : ∃ j, j < s.length ∧ s.getD j 0 ≠ 0) :
    ¬ ((liftZ s).all fun share => share == some 0) = true := by
  intro hall
  obtain ⟨j, hj, hne⟩ := h
  rw [List.all_eq_true] at hall
  have hmem : some (s.getD j 0) ∈ liftZ s := by
    rw [getD_eq_getElem_of_lt s j hj]
    exact List.mem_map_of_mem some (List.getElem_mem hj)
  have hz := hall _ hmem
  rw [beq_iff_eq] at hz
  apply hne
  injection hz

end AllZeroCheck

section DistNonzeroMain

/-- The nonzero-share distribution loop succeeds (no throw, enough fuel) on
any state whose remainder is non-negative and which either holds a strictly
positive share (the non-negative-total case) or has a negative target sum
(the negative-total case): it preserves the length, adds exactly the
remainder to the total, only ever increments entries, and never touches an
entry that is currently `0`. -/
lemma distNonzero_ok (indices : List ℕ) (n : ℕ) (hn : 0 < n)
    (hlen : indices.length = n)
    (hval : ∀ p, indices.getD p 0 < n)
    (hcov : ∀ j, j < n → ∃ p, p < n ∧ indices.getD p 0 = j) :
    ∀ (fuel : ℕ) (r : ℤ) (i : ℕ) (shares : List ℤ) (d : ℕ),
      shares.length = n → i < n → 0 ≤ r →
      ((∃ j, j < n ∧ 0 < shares.getD j 0) ∨ shares.sum + r < 0) →
      distTo indices shares i n = some d →
      n * r.toNat + d + 1 ≤ fuel →
      ∃ out : List ℤ,
        distNonzero indices fuel i (liftZ shares) r = Except.ok (liftZ out) ∧
        out.length = n ∧
        out.sum = shares.sum + r ∧
        (∀ j, shares.getD j 0 ≤ out.getD j 0) ∧
        (∀ j, j < n → shares.getD j 0 = 0 → out.getD j 0 = 0) := by
  intro fuel
  induction fuel with
  | zero =>
    intro r i shares d _ _ _ _ _ hfuel
    omega
  | succ fuel ih =>
    intro r i shares d hslen hi hr hinv hdist hfuel
    by_cases hr0 : 0 < r
    case neg =>
      have hreq : r = 0 := by omega
      refine ⟨shares, ?_, hslen, by omega, fun j => le_refl _, fun j _ h => h⟩
      simp only [distNonzero]
      rw [if_neg hr0]
    case pos =>
      have hm : ∃ m, n = m + 1 := ⟨n - 1, by omega⟩
      obtain ⟨m, hmn⟩ := hm
      have hj : indices.getD i 0 < n := hval i
      have hjs : indices.getD i 0 < shares.length := by omega
      -- the invariant always provides a nonzero entry
      have hnz : ∃ j0, j0 < n ∧ shares.getD j0 0 ≠ 0 := by
        rcases hinv with ⟨j0, hj0, hpos⟩ | hneg
        · exact ⟨j0, hj0, by omega⟩
        · have hsneg : shares.sum < 0 := by omega
          obtain ⟨j0, hj0, hv⟩ := exists_neg_entry shares hsneg
          exact ⟨j0, by omega, by omega⟩
      simp only [distNonzero]
      rw [if_pos hr0]
      rw [liftZ_getD shares _ hjs]
      cases d with
      | zero =>
        -- the current position already holds a nonzero share: hit
        have hhit : shares.getD (indices.getD i 0) 0 ≠ 0 := by
          rw [hmn] at hdist
          exact distTo_succ_zero indices shares m i hdist
        rw [if_pos (show some (shares.getD (indices.getD i 0) 0) ≠ some 0 from
          fun hc => hhit (by injection hc))]
        rw [bump_liftZ]
        have hs1len : (bumpZ shares (indices.getD i 0)).length = n := by
          rw [bumpZ_length]
          exact hslen
        have hs1sum : (bumpZ shares (indices.getD i 0)).sum = shares.sum + 1 :=
          bumpZ_sum shares _ hjs
        have hinv1 :
            (∃ j0, j0 < n ∧ 0 < (bumpZ shares (indices.getD i 0)).getD j0 0) ∨
            (bumpZ shares (indices.getD i 0)).sum + (r - 1) < 0 := by
          rcases hinv with ⟨j0, hj0, hpos⟩ | hneg
          · left
            refine ⟨j0, hj0, ?_⟩
            by_cases hjj : indices.getD i 0 = j0
            · rw [← hjj] at hpos ⊢
              rw [bumpZ_getD_self shares _ hjs]
              omega
            · rw [bumpZ_getD_ne shares _ _ hjj]
              exact hpos
          · right
            omega
        have hnz1 : ∃ j0, j0 < n ∧ (bumpZ shares (indices.getD i 0)).getD j0 0 ≠ 0 := by
          rcases hinv1 with ⟨j0, hj0, hpos⟩ | hneg
          · exact ⟨j0, hj0, by omega⟩
          · have hsneg : (bumpZ shares (indices.getD i 0)).sum < 0 := by omega
            obtain ⟨j0, hj0, hv⟩ := exists_neg_entry _ hsneg
            exact ⟨j0, by omega, by omega⟩
        rw [if_neg (liftZ_not_all_zero _ (by
          obtain ⟨j0, hj0, hv⟩ := hnz1
          exact ⟨j0, by omega, hv⟩))]
        -- set up the recursive call
        have hi1 : (i + 1) % indices.length < n := by
          rw [hlen]
          exact Nat.mod_lt _ hn
        obtain ⟨d1, hd1⟩ := distTo_found indices (bumpZ shares (indices.getD i 0))
          (by omega) ((i + 1) % indices.length) (by omega) (by
            obtain ⟨j0, hj0, hv⟩ := hnz1
            obtain ⟨p, hp, hpv⟩ := hcov j0 hj0
            exact ⟨p, by omega, by rw [hpv]; exact hv⟩)
        have hd1' : distTo indices (bumpZ shares (indices.getD i 0))
            ((i + 1) % indices.length) n = some d1 := by
          rw [← hlen]
          exact hd1
        have hd1lt : d1 < n := by
          have := distTo_lt indices _ _ _ _ hd1'
          omega
        have hfuel1 : n * (r - 1).toNat + d1 + 1 ≤ fuel := by
          have hrn : r.toNat = (r - 1).toNat + 1 := by omega
          have hmul : n * r.toNat = n * (r - 1).toNat + n := by
            rw [hrn]
            ring
          omega
        obtain ⟨out, heq, hlenout, hsumout, hmono, hzero⟩ :=
          ih (r - 1) ((i + 1) % indices.length) (bumpZ shares (indices.getD i 0))
            d1 hs1len hi1 (by omega) hinv1 hd1' hfuel1
        refine ⟨out, heq, hlenout, by omega, ?_, ?_⟩
        · intro j0
          refine le_trans ?_ (hmono j0)
          by_cases hjj : indices.getD i 0 = j0
          · rw [← hjj, bumpZ_getD_self shares _ hjs]
            omega
          · rw [bumpZ_getD_ne shares _ _ hjj]
        · intro j0 hj0 hz
          apply hzero j0 hj0
          have hjj : indices.getD i 0 ≠ j0 := fun hc => hhit (hc ▸ hz)
          rw [bumpZ_getD_ne shares _ _ hjj]
          exact hz
      | succ d0 =>
        -- the current position holds a zero share: skip
        obtain ⟨hmiss, hrest⟩ := by
          rw [hmn] at hdist
          exact distTo_succ_pos indices shares m i d0 hdist
        rw [if_neg (show ¬ some (shares.getD (indices.getD i 0) 0) ≠ some 0 from
          fun hc => hc (by rw [hmiss]))]
        rw [if_neg (liftZ_not_all_zero shares (by
          obtain ⟨j0, hj0, hv⟩ := hnz
          exact ⟨j0, by omega, hv⟩))]
        have hi1 : (i + 1) % indices.length < n := by
          rw [hlen]
          exact Nat.mod_lt _ hn
        have hrest' : distTo indices shares ((i + 1) % indices.length) n = some d0 := by
          rw [hmn]
          exact distTo_mono indices shares m _ _ hrest
        exact ih r ((i + 1) % indices.length) shares d0 hslen hi1 hr hinv
          hrest' (by omega)

end DistNonzeroMain

section SplitSetup

/-- The exact integer floors of the raw shares, for a nonzero weight total. -/
def intFloors (totalAmount : ℤ) (weights : List ℚ) : List ℤ :=
  weights.map fun w => Rat.floor (w / weights.sum * (totalAmount : ℚ))

lemma intFloors_length (totalAmount : ℤ) (weights : List ℚ) :
    (intFloors totalAmount weights).length = weights.length := by
  simp [intFloors]

lemma weights_sum_pos (weights : List ℚ) (hnn : ∀ w ∈ weights, 0 ≤ w)
    (hex : ∃ w ∈ weights, w ≠ 0) : 0 < weights.sum := by
  obtain ⟨w, hw, hwne⟩ := hex
  have hwpos : 0 < w := lt_of_le_of_ne (hnn w hw) (Ne.symm hwne)
  have := List.single_le_sum hnn w hw
  linarith

lemma flooredShares_eq (totalAmount : ℤ) (weights : List ℚ)
    (hsum : weights.sum ≠ 0) :
    flooredShares totalAmount weights = liftZ (intFloors totalAmount weights) := by
  unfold flooredShares rawShares intFloors liftZ
  rw [List.map_map, List.map_map]
  apply List.map_congr_left
  intro w hw
  simp [jsDiv, hsum]

lemma intFloors_getD (totalAmount : ℤ) (weights : List ℚ) (j : ℕ)
    (hj : j < weights.length) :
    (intFloors totalAmount weights).getD j 0 =
      Rat.floor (weights[j] / weights.sum * (totalAmount : ℚ)) := by
  rw [getD_eq_getElem_of_lt _ j (by rw [intFloors_length]; exact hj)]
  simp [intFloors]

lemma intFloors_nonneg (totalAmount : ℤ) (weights : List ℚ)
    (ht : 0 ≤ totalAmount) (hnn : ∀ w ∈ weights, 0 ≤ w)
    (hpos : 0 < weights.sum) :
    ∀ x ∈ intFloors totalAmount weights, 0 ≤ x := by
  intro x hx
  rw [intFloors] at hx
  obtain ⟨w, hw, hv⟩ := List.mem_map.mp hx
  rw [← hv]
  show (0 : ℤ) ≤ Int.floor (w / weights.sum * (totalAmount : ℚ))
  apply Int.floor_nonneg.mpr
  apply mul_nonneg (div_nonneg (hnn w hw) (le_of_lt hpos))
  exact_mod_cast ht

lemma rawSum_eq (totalAmount : ℤ) (weights : List ℚ) (hsum : weights.sum ≠ 0) :
    (weights.map fun w => w / weights.sum * (totalAmount : ℚ)).sum =
      (totalAmount : ℚ) := by
  have hcg : (weights.map fun w => w / weights.sum * (totalAmount : ℚ)) =
      weights.map fun w => w * ((totalAmount : ℚ) / weights.sum) := by
    apply List.map_congr_left
    intro w _
    ring
  rw [hcg, List.sum_map_mul_right]
  have hid : (weights.map fun w => w) = weights := by simp
  rw [hid]
  field_simp

lemma intFloors_sum_le (totalAmount : ℤ) (weights : List ℚ)
    (hsum : weights.sum ≠ 0) :
    (intFloors totalAmount weights).sum ≤ totalAmount := by
  have h1 : (((intFloors totalAmount weights).sum : ℤ) : ℚ) ≤ (totalAmount : ℚ) := by
    rw [Int.cast_list_sum, intFloors, List.map_map]
    calc (weights.map fun w =>
            ((Rat.floor (w / weights.sum * (totalAmount : ℚ)) : ℤ) : ℚ)).sum
        ≤ (weights.map fun w => w / weights.sum * (totalAmount : ℚ)).sum := by
          apply List.sum_le_sum
          intro w _
          exact Int.floor_le (w / weights.sum * (totalAmount : ℚ))
      _ = (totalAmount : ℚ) := rawSum_eq totalAmount weights hsum
  exact_mod_cast h1

lemma intFloors_zero_total (weights : List ℚ) :
    (intFloors 0 weights).sum = 0 := by
  apply List.sum_eq_zero
  intro x hx
  rw [intFloors] at hx
  obtain ⟨w, hw, hv⟩ := List.mem_map.mp hx
  rw [← hv]
  show Int.floor (w / weights.sum * ((0 : ℤ) : ℚ)) = 0
  norm_num

lemma intFloors_all_zero (totalAmount : ℤ) (weights : List ℚ)
    (ht : 0 ≤ totalAmount) (hnn : ∀ w ∈ weights, 0 ≤ w)
    (hpos : 0 < weights.sum)
    (hz : (intFloors totalAmount weights).sum = 0) :
    ∀ j, j < weights.length → (intFloors totalAmount weights).getD j 0 = 0 := by
  intro j hj
  have hjlen : j < (intFloors totalAmount weights).length := by
    rw [intFloors_length]
    exact hj
  have hnn' := intFloors_nonneg totalAmount weights ht hnn hpos
  by_contra hne
  have hmem : (intFloors totalAmount weights).getD j 0 ∈ intFloors totalAmount weights := by
    rw [getD_eq_getElem_of_lt _ j hjlen]
    exact List.getElem_mem hjlen
  have hvpos : 0 < (intFloors totalAmount weights).getD j 0 :=
    lt_of_le_of_ne (hnn' _ hmem) (Ne.symm hne)
  -- a positive entry in a non-negative list contradicts a zero sum
  have hle := List.single_le_sum hnn' _ hmem
  omega

end SplitSetup

section SplitMaster

/-- Master specification of `integerSplitByWeights` for non-empty
non-negative weights with at least one nonzero weight: the call returns
normally (no throw), the result has the length of `weights`, sums exactly
to the total, dominates the floored shares pointwise, never increments a
zero floored share when the floored total is nonzero, and distributes the
whole total round-robin along the shuffled order when the floored total is
zero. -/
lemma integerSplitByWeights_master (totalAmount : ℤ) (weights : List ℚ)
    (draws : ℕ → ℕ) (hne : weights ≠ []) (hnn : ∀ w ∈ weights, 0 ≤ w)
    (hex : ∃ w ∈ weights, w ≠ 0) :
    ∃ out : List ℤ,
      integerSplitByWeights totalAmount weights draws = Except.ok (liftZ out) ∧
      out.length = weights.length ∧
      out.sum = totalAmount ∧
      (∀ j, (intFloors totalAmount weights).getD j 0 ≤ out.getD j 0) ∧
      ((intFloors totalAmount weights).sum ≠ 0 →
        ∀ j, j < weights.length →
          (intFloors totalAmount weights).getD j 0 = 0 → out.getD j 0 = 0) ∧
      ((intFloors totalAmount weights).sum = 0 →
        ∀ p, p < weights.length →
          out.getD ((indicesOf weights draws).getD p 0) 0 =
            ((totalAmount.toNat / weights.length : ℕ) : ℤ) +
              if p < totalAmount.toNat % weights.length then 1 else 0) := by
  have hn : 0 < weights.length := List.length_pos.mpr hne
  have hS : 0 < weights.sum := weights_sum_pos weights hnn hex
  have hSne : weights.sum ≠ 0 := ne_of_gt hS
  have hfe : flooredShares totalAmount weights =
      liftZ (intFloors totalAmount weights) := flooredShares_eq totalAmount weights hSne
  have hjs : jsSum (flooredShares totalAmount weights) =
      some (intFloors totalAmount weights).sum := by
    rw [hfe, jsSum_liftZ]
  have hflen : (intFloors totalAmount weights).length = weights.length :=
    intFloors_length totalAmount weights
  have hfsle : (intFloors totalAmount weights).sum ≤ totalAmount :=
    intFloors_sum_le totalAmount weights hSne
  have hidxlen : (indicesOf weights draws).length = weights.length :=
    indicesOf_length weights draws
  have hidxval : ∀ p, (indicesOf weights draws).getD p 0 < weights.length :=
    indicesOf_getD_lt weights draws hn
  have hidxnd : (indicesOf weights draws).Nodup := indicesOf_nodup weights draws
  have hidxcov : ∀ j, j < weights.length →
      ∃ p, p < weights.length ∧ (indicesOf weights draws).getD p 0 = j :=
    indicesOf_cover weights draws
  simp only [integerSplitByWeights]
  split
  case h_1 hnone =>
    rw [hjs] at hnone
    cases hnone
  case h_2 ft hft_eq =>
    rw [hjs] at hft_eq
    have hftv : ft = (intFloors totalAmount weights).sum := by
      injection hft_eq.symm
    subst hftv
    by_cases hft : (intFloors totalAmount weights).sum = 0
    · -- round-robin branch
      rw [if_pos hft]
      have ht0 : 0 ≤ totalAmount := by omega
      have hallz := intFloors_all_zero totalAmount weights ht0 hnn hS hft
      have hrem : totalAmount - (intFloors totalAmount weights).sum = totalAmount := by
        rw [hft, sub_zero]
      rw [hrem, hfe]
      obtain ⟨out, heq, hlenout, hsumout, hgetD⟩ :=
        roundRobin_liftZ (indicesOf weights draws) totalAmount.toNat totalAmount
          rfl 0 (intFloors totalAmount weights)
          (by intro p; rw [hflen]; exact hidxval p)
      refine ⟨out, by rw [heq], by rw [hlenout, hflen], ?_, ?_, ?_, ?_⟩
      · rw [hsumout, hft, max_eq_left ht0]
        omega
      · intro j
        rw [hgetD j]
        omega
      · intro hc
        exact absurd hft hc
      · intro hzero p hp
        rw [hgetD _]
        rw [hallz _ (hidxval p)]
        rw [rrCount_closed (indicesOf weights draws) (by omega) hidxnd p _
          (by omega) rfl totalAmount.toNat]
        rw [hidxlen, Nat.cast_add, apply_ite (fun n : ℕ => (n : ℤ))]
        simp
    · -- distribute-to-nonzero branch
      rw [if_neg hft]
      rw [hfe]
      -- find the starting distance
      have hnzf : ∃ j, j < weights.length ∧
          (intFloors totalAmount weights).getD j 0 ≠ 0 := by
        obtain ⟨j, hj, hv⟩ :=
          exists_ne_zero_of_sum_ne_zero (intFloors totalAmount weights) hft
        exact ⟨j, by omega, hv⟩
      obtain ⟨d, hd⟩ := distTo_found (indicesOf weights draws)
        (intFloors totalAmount weights) (by omega) 0 (by omega) (by
          obtain ⟨j, hj, hv⟩ := hnzf
          obtain ⟨p, hp, hpv⟩ := hidxcov j hj
          exact ⟨p, by omega, by rw [hpv]; exact hv⟩)
      have hd' : distTo (indicesOf weights draws) (intFloors totalAmount weights)
          0 weights.length = some d := by
        rw [← hidxlen]
        exact hd
      have hdlt : d < weights.length := by
        have := distTo_lt (indicesOf weights draws) (intFloors totalAmount weights)
          _ _ _ hd'
        omega
      have hinv : (∃ j, j < weights.length ∧
          0 < (intFloors totalAmount weights).getD j 0) ∨
          (intFloors totalAmount weights).sum +
            (totalAmount - (intFloors totalAmount weights).sum) < 0 := by
        rcases lt_trichotomy totalAmount 0 with hneg | hzero | hpos
        · right
          omega
        · exfalso
          apply hft
          rw [hzero]
          exact intFloors_zero_total weights
        · left
          have hnn' := intFloors_nonneg totalAmount weights (by omega) hnn hS
          have hspos : 0 < (intFloors totalAmount weights).sum := by
            rcases lt_or_eq_of_le (List.sum_nonneg hnn') with h | h
            · exact h
            · exact absurd h.symm hft
          obtain ⟨j, hj, hv⟩ := exists_pos_entry _ hnn' hspos
          exact ⟨j, by omega, hv⟩
      obtain ⟨out, heq, hlenout, hsumout, hmono, hzero⟩ :=
        distNonzero_ok (indicesOf weights draws) weights.length hn hidxlen hidxval
          hidxcov
          (weights.length * (totalAmount - (intFloors totalAmount weights).sum).toNat +
            weights.length + 1)
          (totalAmount - (intFloors totalAmount weights).sum) 0
          (intFloors totalAmount weights) d hflen hn (by omega) hinv hd' (by omega)
      refine ⟨out, heq, hlenout, by omega, hmono, ?_, ?_⟩
      · intro _ j hj hz
        exact hzero j hj hz
      · intro hc
        exact absurd hc hft

end SplitMaster

section AllZeroWeights

lemma jsSum_replicate_none (n : ℕ) (hn : 0 < n) :
    jsSum (List.replicate n none) = none := by
  cases n with
  | zero => omega
  | succ m => rfl

lemma flooredShares_all_zero_weights (totalAmount : ℤ) (weights : List ℚ)
    (hall : ∀ w ∈ weights, w = 0) :
    flooredShares totalAmount weights = List.replicate weights.length none := by
  have hsum : weights.sum = 0 := List.sum_eq_zero hall
  unfold flooredShares rawShares
  rw [List.map_map]
  have hcg : ∀ w ∈ weights,
      (Option.map Rat.floor ∘ fun w =>
        (jsDiv w weights.sum).map fun q => q * (totalAmount : ℚ)) w =
      (fun _ => (none : Option ℤ)) w := by
    intro w hw
    rw [Function.comp_apply, hsum]
    simp [jsDiv]
  rw [List.map_congr_left hcg, List.map_const']

/-- With every weight zero the weight total is `0`, every raw share is the
JS `NaN` from `0/0`, the floored total is `NaN`, so neither distribution
loop runs and the function returns the array of `NaN`s normally, without
throwing. -/
lemma integerSplitByWeights_all_zero (totalAmount : ℤ) (weights : List ℚ)
    (draws : ℕ → ℕ) (hne : weights ≠ []) (hall : ∀ w ∈ weights, w = 0) :
    integerSplitByWeights totalAmount weights draws =
      Except.ok (List.replicate weights.length none) := by
  have hn : 0 < weights.length := List.length_pos.mpr hne
  have hf := flooredShares_all_zero_weights totalAmount weights hall
  simp only [integerSplitByWeights]
  split
  case h_1 => rw [hf]
  case h_2 ft hft_eq =>
    rw [hf, jsSum_replicate_none weights.length hn] at hft_eq
    cases hft_eq

end AllZeroWeights

section ValidateTransaction

/-- A transaction write request, as checked by `validateTransaction` in
`src/unnamed/part_001`.  The database lookups the source performs (ledger
existence, the ledger's member list) are passed in as parameters. -/
structure TxInput where
  currency : String
  weights : List ℚ
  members : List String
  paid : List ℚ
  name : Option String
  category : Option String
  expense_type : String
  ledger : String

def supportedCurrencies : List String := ["CAD", "USD", "EUR", "PLN"]

/-- `validateTransaction` from `src/unnamed/part_001`: the checks in source
order, returning the thrown `{status, message}` object on failure.
`uniq (members).length !== members.length` is expressed as `¬ Nodup`. -/
def validateTransaction (t : TxInput) (ledgerExists : Bool)
    (ledgerMembers : List String) : Except (ℕ × String) Unit :=
  if ¬ supportedCurrencies.contains t.currency then
    Except.error (400, "Currency is not supported, we support the following currencies: CAD, USD, EUR, PLN")
  else if t.weights.all fun w => w == 0 then
    Except.error (400, "All the weights are zero, the transaction is invalid.")
  else if ¬ (t.members.length = t.weights.length ∧
      t.members.length = t.paid.length) then
    Except.error (400, "The number of members, weights, and paid amounts must be the same.")
  else if ¬ t.members.Nodup then
    Except.error (400, "Members must be unique.")
  else if ¬ ledgerExists then
    Except.error (400, "The specified ledger does not exist.")
  else if t.name.getD "" = "" ∧ t.category.getD "" = "" then
    Except.error (400, "A transaction must have a name or a category.")
  else if ¬ (t.expense_type = "expense" ∨ t.expense_type = "income" ∨
      t.expense_type = "transfer") then
    Except.error (400, "The expense type must be either \"expense\", \"income\", or \"transfer\".")
  else if t.paid.any fun a => decide (a ≤ 0) then
    Except.error (400, "All the " ++
      (if t.expense_type = "income" then "received" else "paid") ++
      " amounts must be positive.")
  else if ¬ t.members.all fun m => ledgerMembers.contains m then
    Except.error (400, "One or more members do not exist in the ledger.")
  else Except.ok ()

end ValidateTransaction

section ClaimApportionment

/-- Claim C1: for every non-empty weight sequence of non-negative rationals
with at least one nonzero weight, every integer total (positive, zero or
negative) and every seed (draw stream), `integerSplitByWeights` returns
normally a sequence of the same length as `weights` whose elements sum
exactly to the total.  The final conjunct records that the remainder
`total - sum (floored shares)` is in fact never negative in exact
arithmetic (floors never overshoot), so the claim's negative-remainder
decrementing case is vacuous. -/
theorem C1_split_length_and_exact_sum (totalAmount : ℤ) (weights : List ℚ)
    (draws : ℕ → ℕ) (hne : weights ≠ []) (hnn : ∀ w ∈ weights, 0 ≤ w)
    (hex : ∃ w ∈ weights, w ≠ 0) :
    ∃ out : List ℤ,
      integerSplitByWeights totalAmount weights draws = Except.ok (liftZ out) ∧
      out.length = weights.length ∧ out.sum = totalAmount ∧
      0 ≤ totalAmount - (intFloors totalAmount weights).sum := by
  obtain ⟨out, h1, h2, h3, _, _, _⟩ :=
    integerSplitByWeights_master totalAmount weights draws hne hnn hex
  have hle := intFloors_sum_le totalAmount weights
    (ne_of_gt (weights_sum_pos weights hnn hex))
  exact ⟨out, h1, h2, h3, by omega⟩

/-- Witness for C1, on a negative total. -/
theorem C1_split_length_and_exact_sum_witness :
    ∃ out : List ℤ,
      integerSplitByWeights (-7) [(1 : ℚ), 2] (fun _ => 0) =
        Except.ok (liftZ out) ∧
      out.length = ([(1 : ℚ), 2]).length ∧ out.sum = -7 ∧
      0 ≤ -7 - (intFloors (-7) [(1 : ℚ), 2]).sum :=
  C1_split_length_and_exact_sum (-7) [(1 : ℚ), 2] (fun _ => 0) (by decide)
    (by decide) (by decide)

/-- Claim C10: for a non-negative total, every returned share dominates the
floored raw share of its index (the remainder distribution only ever
increments) and is therefore non-negative. -/
theorem C10_shares_dominate_floors (totalAmount : ℤ) (weights : List ℚ)
    (draws : ℕ → ℕ) (hne : weights ≠ []) (hnn : ∀ w ∈ weights, 0 ≤ w)
    (hex : ∃ w ∈ weights, w ≠ 0) (ht : 0 ≤ totalAmount) :
    ∃ out : List ℤ,
      integerSplitByWeights totalAmount weights draws = Except.ok (liftZ out) ∧
      ∀ j, j < weights.length →
        (intFloors totalAmount weights).getD j 0 ≤ out.getD j 0 ∧
        0 ≤ out.getD j 0 := by
  obtain ⟨out, h1, _, _, hmono, _, _⟩ :=
    integerSplitByWeights_master totalAmount weights draws hne hnn hex
  have hS := weights_sum_pos weights hnn hex
  have hnn' := intFloors_nonneg totalAmount weights ht hnn hS
  refine ⟨out, h1, ?_⟩
  intro j hj
  have hjf : j < (intFloors totalAmount weights).length := by
    rw [intFloors_length]
    exact hj
  have hmem : (intFloors totalAmount weights).getD j 0 ∈
      intFloors totalAmount weights := by
    rw [getD_eq_getElem_of_lt _ j hjf]
    exact List.getElem_mem hjf
  have h0 := hnn' _ hmem
  exact ⟨hmono j, le_trans h0 (hmono j)⟩

/-- Witness for C10. -/
theorem C10_shares_dominate_floors_witness :
    ∃ out : List ℤ,
      integerSplitByWeights 7 [(1 : ℚ), 0, 2] (fun _ => 1) =
        Except.ok (liftZ out) ∧
      ∀ j, j < ([(1 : ℚ), 0, 2]).length →
        (intFloors 7 [(1 : ℚ), 0, 2]).getD j 0 ≤ out.getD j 0 ∧
        0 ≤ out.getD j 0 :=
  C10_shares_dominate_floors 7 [(1 : ℚ), 0, 2] (fun _ => 1) (by decide)
    (by decide) (by decide) (by decide)

/-- Claim C7: for a non-negative total, a zero weight yields a zero floored
share; when the floored total is nonzero, every index whose floored share
is `0` keeps final share `0` (the zero-skip rule); when every floored share
is `0` (zero floored total), the whole total is distributed round-robin
along the shuffled index order, the first `total % n` positions of the
shuffle receiving one extra unit. -/
theorem C7_zero_skip_and_round_robin (totalAmount : ℤ) (weights : List ℚ)
    (draws : ℕ → ℕ) (hne : weights ≠ []) (hnn : ∀ w ∈ weights, 0 ≤ w)
    (hex : ∃ w ∈ weights, w ≠ 0) (ht : 0 ≤ totalAmount) :
    ∃ out : List ℤ,
      integerSplitByWeights totalAmount weights draws = Except.ok (liftZ out) ∧
      (∀ j, j < weights.length → weights.getD j 0 = 0 →
        (intFloors totalAmount weights).getD j 0 = 0) ∧
      ((intFloors totalAmount weights).sum ≠ 0 →
        ∀ j, j < weights.length →
          (intFloors totalAmount weights).getD j 0 = 0 → out.getD j 0 = 0) ∧
      ((intFloors totalAmount weights).sum = 0 →
        ∀ p, p < weights.length →
          out.getD ((indicesOf weights draws).getD p 0) 0 =
            ((totalAmount.toNat / weights.length : ℕ) : ℤ) +
              if p < totalAmount.toNat % weights.length then 1 else 0) := by
  obtain ⟨out, h1, _, _, _, hskip, hrr⟩ :=
    integerSplitByWeights_master totalAmount weights draws hne hnn hex
  refine ⟨out, h1, ?_, hskip, hrr⟩
  intro j hj hw0
  rw [intFloors_getD totalAmount weights j hj]
  rw [getD_eq_getElem_of_lt weights j hj] at hw0
  rw [hw0]
  show Int.floor ((0 : ℚ) / weights.sum * (totalAmount : ℚ)) = 0
  norm_num

/-- Witness for C7. -/
theorem C7_zero_skip_and_round_robin_witness :
    ∃ out : List ℤ,
      integerSplitByWeights 5 [(1 : ℚ), 0] (fun _ => 0) =
        Except.ok (liftZ out) ∧
      (∀ j, j < ([(1 : ℚ), 0]).length → ([(1 : ℚ), 0]).getD j 0 = 0 →
        (intFloors 5 [(1 : ℚ), 0]).getD j 0 = 0) ∧
      ((intFloors 5 [(1 : ℚ), 0]).sum ≠ 0 →
        ∀ j, j < ([(1 : ℚ), 0]).length →
          (intFloors 5 [(1 : ℚ), 0]).getD j 0 = 0 → out.getD j 0 = 0) ∧
      ((intFloors 5 [(1 : ℚ), 0]).sum = 0 →
        ∀ p, p < ([(1 : ℚ), 0]).length →
          out.getD ((indicesOf [(1 : ℚ), 0] (fun _ => 0)).getD p 0) 0 =
            (((5 : ℤ).toNat / ([(1 : ℚ), 0]).length : ℕ) : ℤ) +
              if p < (5 : ℤ).toNat % ([(1 : ℚ), 0]).length then 1 else 0) :=
  C7_zero_skip_and_round_robin 5 [(1 : ℚ), 0] (fun _ => 0) (by decide)
    (by decide) (by decide) (by decide)

lemma intFloors_hundred : intFloors 100 [(1 : ℚ), 1, 1] = [33, 33, 33] := by
  unfold intFloors
  have h : ∀ w ∈ [(1 : ℚ), 1, 1],
      Rat.floor (w / ([(1 : ℚ), 1, 1]).sum * ((100 : ℤ) : ℚ)) = (33 : ℤ) := by
    intro w hw
    have hw1 : w = 1 := by
      simpa using hw
    subst hw1
    show Int.floor ((1 : ℚ) / ([(1 : ℚ), 1, 1]).sum * ((100 : ℤ) : ℚ)) = 33
    have h2 : (1 : ℚ) / ([(1 : ℚ), 1, 1]).sum * ((100 : ℤ) : ℚ) = 100 / 3 := by
      norm_num
    rw [h2, Int.floor_eq_iff]
    norm_num
  rw [List.map_congr_left h]
  rfl

/-- Claim C9: for total `100` and weights `[1, 1, 1]`, for every seed the
returned shares sum to `100`, each share is `33` or `34`, and exactly one
member receives `34` (which one depends on the seeded permutation). -/
theorem C9_hundred_three_even_weights (draws : ℕ → ℕ) :
    ∃ out : List ℤ,
      integerSplitByWeights 100 [(1 : ℚ), 1, 1] draws = Except.ok (liftZ out) ∧
      out.sum = 100 ∧ out.length = 3 ∧
      (∀ x ∈ out, x = 33 ∨ x = 34) ∧ out.count 34 = 1 := by
  obtain ⟨out, h1, h2, h3, hmono, _, _⟩ :=
    integerSplitByWeights_master 100 [(1 : ℚ), 1, 1] draws (by decide)
      (by decide) (by decide)
  rw [intFloors_hundred] at hmono
  have hlen3 : out.length = 3 := by simpa using h2
  obtain ⟨a, b, c, rfl⟩ := List.length_eq_three.mp hlen3
  have hsum : a + b + c = 100 := by
    have := h3
    simp [List.sum_cons] at this
    omega
  have ha : (33 : ℤ) ≤ a := by simpa using hmono 0
  have hb : (33 : ℤ) ≤ b := by simpa using hmono 1
  have hc : (33 : ℤ) ≤ c := by simpa using hmono 2
  have ha' : a = 33 ∨ a = 34 := by omega
  have hb' : b = 33 ∨ b = 34 := by omega
  have hc' : c = 33 ∨ c = 34 := by omega
  refine ⟨[a, b, c], h1, h3, hlen3, ?_⟩
  rcases ha' with rfl | rfl <;> rcases hb' with rfl | rfl <;>
    rcases hc' with rfl | rfl <;>
    first
      | (exfalso; omega)
      | exact ⟨by decide, by decide⟩

end ClaimApportionment

section ClaimAllZero

/-- Counterexample to C3 as stated: at the concrete input `total = 100`,
`weights = [0, 0]`, the function does not raise any failure — it returns
normally, with both shares being the JS `NaN` (here `none`). -/
theorem C3_counterexample :
    integerSplitByWeights 100 [(0 : ℚ), 0] (fun _ => 0) =
      Except.ok [none, none] := by
  have h := integerSplitByWeights_all_zero 100 [(0 : ℚ), 0] (fun _ => 0)
    (by decide) (by decide)
  simpa using h

/-- Claim C3 (amended): if every weight is zero, `integerSplitByWeights`
does not raise: the `0/0` division makes every share `NaN` and the `NaN`
remainder fails both loops' `remainder > 0` guard, so the function returns
the array of `NaN` shares silently, for every total; upstream transaction
validation independently rejects all-zero weight vectors (for any supported
currency) before such a call can be made. -/
theorem C3_all_zero_weights_amended :
    (∀ (totalAmount : ℤ) (weights : List ℚ) (draws : ℕ → ℕ),
      weights ≠ [] → (∀ w ∈ weights, w = 0) →
      integerSplitByWeights totalAmount weights draws =
        Except.ok (List.replicate weights.length none)) ∧
    (∀ (t : TxInput) (ledgerExists : Bool) (ledgerMembers : List String),
      supportedCurrencies.contains t.currency = true →
      (∀ w ∈ t.weights, w = 0) →
      validateTransaction t ledgerExists ledgerMembers =
        Except.error (400, "All the weights are zero, the transaction is invalid.")) := by
  constructor
  · intro totalAmount weights draws hne hall
    exact integerSplitByWeights_all_zero totalAmount weights draws hne hall
  · intro t ledgerExists ledgerMembers hcur hall
    unfold validateTransaction
    rw [if_neg (not_not_intro hcur)]
    rw [if_pos ?hz]
    case hz =>
      rw [List.all_eq_true]
      intro w hw
      rw [beq_iff_eq]
      exact hall w hw

/-- Witness for the amended C3. -/
theorem C3_all_zero_weights_amended_witness :
    integerSplitByWeights 100 [(0 : ℚ), 0, 0] (fun _ => 3) =
      Except.ok (List.replicate 3 none) ∧
    validateTransaction
      { currency := "CAD", weights := [0, 0], members := ["A", "B"],
        paid := [1, 1], name := some "x", category := none,
        expense_type := "expense", ledger := "L" } true ["A", "B"] =
      Except.error (400, "All the weights are zero, the transaction is invalid.") :=
  ⟨C3_all_zero_weights_amended.1 100 [(0 : ℚ), 0, 0] (fun _ => 3) (by decide)
      (by decide),
    C3_all_zero_weights_amended.2 _ true ["A", "B"] (by decide) (by decide)⟩

end ClaimAllZero

section SettlementDefs

/-- One row of the balance sequence fed to the settlement loop: the member's
name and net balance in integer cents. -/
structure Balance where
  name : String
  balance : ℤ
deriving DecidableEq

/-- One transfer produced by the settlement loop, amount in integer cents
(the handler divides by 100 only for presentation). -/
structure Settlement where
  payer : String
  payee : String
  amount : ℤ
deriving DecidableEq

/-- The `while (balances.length > 1)` loop of `settlementsGetHandler`
(`src/unnamed/part_001` and `src/common.mjs`): `payee` is the front,
`payer` the back, the transfer amount is `Math.min (abs, abs)`; endpoints
whose balance reaches exactly `0` are shifted/popped.  The loop also
returns the final balance list (the loop variable's terminal state).
`fuel` bounds the iteration count; the theorems prove the fuel passed by
`settle` is never exhausted on inputs satisfying the ledger invariant. -/
def settleLoop : ℕ → List Balance → List Settlement →
    Option (List Settlement × List Balance)
  | _, [], acc => some (acc, [])
  | _, [b], acc => some (acc, [b])
  | 0, _ :: _ :: _, _ => none
  | fuel + 1, payee :: b :: rest, acc =>
    let payer := (b :: rest).getLast (List.cons_ne_nil b rest)
    let mid := (b :: rest).dropLast
    let amount : ℤ := min |payee.balance| |payer.balance|
    let payee1 : Balance := { payee with balance := payee.balance - amount }
    let payer1 : Balance := { payer with balance := payer.balance + amount }
    let bs1 := (if payee1.balance = 0 then [] else [payee1]) ++ mid ++
      (if payer1.balance = 0 then [] else [payer1])
    settleLoop fuel bs1
      (acc ++ [{ payer := payer.name, payee := payee.name, amount := amount }])

/-- The pure computation of `settlementsGetHandler` on the balance rows it
fetched: drop zero balances, sort by balance descending (the comparator
`(a, b) => b.balance - a.balance`), then run the greedy loop.  Under the
ledger invariant every iteration removes at least one member, so
`sorted.length` steps of fuel always suffice. -/
def settle (balances : List Balance) : Option (List Settlement × List Balance) :=
  let filtered := balances.filter fun b => decide (b.balance ≠ 0)
  let sorted := filtered.mergeSort fun a b => decide (b.balance ≤ a.balance)
  settleLoop sorted.length sorted []

/-- Net amount member `name` receives across a settlement list: transfers
where it is payee count positively, transfers where it is payer count
negatively. -/
def netTo (S : List Settlement) (name : String) : ℤ :=
  (S.map fun s => (if s.payee = name then s.amount else 0) -
    (if s.payer = name then s.amount else 0)).sum

/-- Total balance carried by entries named `name`. -/
def balTo (bs : List Balance) (name : String) : ℤ :=
  (bs.map fun b => if b.name = name then b.balance else 0).sum

/-- Sum of all balances. -/
def sumBal (bs : List Balance) : ℤ :=
  (bs.map Balance.balance).sum

/-- The structural invariant of the loop state: strictly positive balances
form a prefix, strictly negative balances the remaining suffix (no zeros).
It holds after the handler's filter-and-sort and is preserved by every
iteration. -/
def Blocky (bs : List Balance) : Prop :=
  ∃ pos neg, bs = pos ++ neg ∧ (∀ b ∈ pos, 0 < b.balance) ∧
    (∀ b ∈ neg, b.balance < 0)

end SettlementDefs

section SettlementBasic

lemma sumBal_nil : sumBal [] = 0 := rfl

lemma sumBal_cons (b : Balance) (l : List Balance) :
    sumBal (b :: l) = b.balance + sumBal l := by
  simp [sumBal]

lemma sumBal_append (l1 l2 : List Balance) :
    sumBal (l1 ++ l2) = sumBal l1 + sumBal l2 := by
  simp [sumBal]

lemma balTo_nil (name : String) : balTo [] name = 0 := rfl

lemma balTo_cons (b : Balance) (l : List Balance) (name : String) :
    balTo (b :: l) name =
      (if b.name = name then b.balance else 0) + balTo l name := by
  simp [balTo]

lemma balTo_append (l1 l2 : List Balance) (name : String) :
    balTo (l1 ++ l2) name = balTo l1 name + balTo l2 name := by
  simp [balTo]

lemma netTo_nil (name : String) : netTo [] name = 0 := rfl

lemma netTo_cons (s : Settlement) (l : List Settlement) (name : String) :
    netTo (s :: l) name =
      ((if s.payee = name then s.amount else 0) -
        (if s.payer = name then s.amount else 0)) + netTo l name := by
  simp [netTo]

lemma sumBal_pos_of_all_pos (l : List Balance)
    (h : ∀ b ∈ l, 0 < b.balance) (hne : l ≠ []) : 0 < sumBal l := by
  induction l with
  | nil => exact absurd rfl hne
  | cons x t ih =>
    rw [sumBal_cons]
    have hx := h x (List.mem_cons_self x t)
    cases t with
    | nil => rw [sumBal_nil]; omega
    | cons y u =>
      have := ih (fun b hb => h b (List.mem_cons_of_mem x hb)) (by simp)
      omega

lemma sumBal_neg_of_all_neg (l : List Balance)
    (h : ∀ b ∈ l, b.balance < 0) (hne : l ≠ []) : sumBal l < 0 := by
  induction l with
  | nil => exact absurd rfl hne
  | cons x t ih =>
    rw [sumBal_cons]
    have hx := h x (List.mem_cons_self x t)
    cases t with
    | nil => rw [sumBal_nil]; omega
    | cons y u =>
      have := ih (fun b hb => h b (List.mem_cons_of_mem x hb)) (by simp)
      omega

lemma getLast_congr {α : Type _} {l l' : List α} (h : l = l') (hl : l ≠ []) :
    l.getLast hl = l'.getLast (h ▸ hl) := by
  subst h
  rfl

/-- A sorted-descending list with no zero balances splits as positives
followed by negatives. -/
lemma blocky_of_sorted_nonzero (bs : List Balance)
    (hsort : bs.Pairwise fun a b => b.balance ≤ a.balance)
    (hnz : ∀ b ∈ bs, b.balance ≠ 0) : Blocky bs := by
  induction bs with
  | nil => exact ⟨[], [], rfl, by simp, by simp⟩
  | cons x t ih =>
    obtain ⟨pos, neg, heq, hpos, hneg⟩ :=
      ih (List.Pairwise.of_cons hsort) (fun b hb => hnz b (List.mem_cons_of_mem x hb))
    have hx := hnz x (List.mem_cons_self x t)
    rcases lt_or_gt_of_ne hx with hxneg | hxpos
    · -- x is negative: the positive block must be empty
      have hposnil : pos = [] := by
        cases pos with
        | nil => rfl
        | cons p0 ptail =>
          exfalso
          have hp0 : p0 ∈ t := by
            rw [heq]
            exact List.mem_append_left _ (List.mem_cons_self p0 ptail)
          have hle := (List.pairwise_cons.mp hsort).1 p0 hp0
          have := hpos p0 (List.mem_cons_self p0 ptail)
          omega
      subst hposnil
      refine ⟨[], x :: neg, by simpa using heq, by simp, ?_⟩
      intro b hb
      rcases List.mem_cons.mp hb with rfl | hb
      · exact hxneg
      · exact hneg b hb
    · refine ⟨x :: pos, neg, by rw [heq, List.cons_append], ?_, hneg⟩
      intro b hb
      rcases List.mem_cons.mp hb with rfl | hb
      · exact hxpos
      · exact hpos b hb

end SettlementBasic

section SettlementStep

lemma sumBal_opt (nm : String) (v : ℤ) :
    sumBal (if v = 0 then [] else [Balance.mk nm v]) = v := by
  by_cases h : v = 0 <;> simp [h, sumBal]

lemma balTo_opt (nm : String) (v : ℤ) (name : String) :
    balTo (if v = 0 then [] else [Balance.mk nm v]) name =
      if nm = name then v else 0 := by
  by_cases h : v = 0 <;> simp [h, balTo]

lemma length_opt (nm : String) (v : ℤ) :
    (if v = 0 then ([] : List Balance) else [Balance.mk nm v]).length =
      if v = 0 then 0 else 1 := by
  by_cases h : v = 0 <;> simp [h]

lemma mem_opt (nm : String) (v : ℤ) (y : Balance)
    (h : y ∈ (if v = 0 then ([] : List Balance) else [Balance.mk nm v])) :
    y = Balance.mk nm v ∧ v ≠ 0 := by
  by_cases hx : v = 0
  · rw [if_pos hx] at h
    cases h
  · rw [if_neg hx] at h
    simp at h
    exact ⟨h, hx⟩

lemma settleLoop_step (fuel : ℕ) (payee b : Balance) (rest : List Balance)
    (acc : List Settlement) :
    settleLoop (fuel + 1) (payee :: b :: rest) acc =
      settleLoop fuel
        ((if payee.balance -
              min (abs payee.balance)
                (abs ((b :: rest).getLast (List.cons_ne_nil b rest)).balance) = 0
          then []
          else [Balance.mk payee.name (payee.balance -
              min (abs payee.balance)
                (abs ((b :: rest).getLast (List.cons_ne_nil b rest)).balance))]) ++
          (b :: rest).dropLast ++
          (if ((b :: rest).getLast (List.cons_ne_nil b rest)).balance +
              min (abs payee.balance)
                (abs ((b :: rest).getLast (List.cons_ne_nil b rest)).balance) = 0
           then []
           else [Balance.mk ((b :: rest).getLast (List.cons_ne_nil b rest)).name
              (((b :: rest).getLast (List.cons_ne_nil b rest)).balance +
                min (abs payee.balance)
                  (abs ((b :: rest).getLast (List.cons_ne_nil b rest)).balance))]))
        (acc ++ [Settlement.mk ((b :: rest).getLast (List.cons_ne_nil b rest)).name
          payee.name
          (min (abs payee.balance)
            (abs ((b :: rest).getLast (List.cons_ne_nil b rest)).balance))]) :=
  rfl

/-- The settlement loop, on a state satisfying the block invariant with a
zero total: it terminates within `length` iterations, ends with an empty
balance list, emits at most `length - 1` transfers, and the emitted
transfers net out to exactly each name's total balance. -/
lemma settleLoop_master :
    ∀ (fuel : ℕ) (bs : List Balance) (acc : List Settlement),
      bs.length ≤ fuel → Blocky bs → sumBal bs = 0 →
      ∃ S, settleLoop fuel bs acc = some (acc ++ S, []) ∧
        S.length ≤ bs.length - 1 ∧
        ∀ name, netTo S name = balTo bs name := by
  intro fuel
  induction fuel with
  | zero =>
    intro bs acc hlen hb hs
    cases bs with
    | nil =>
      exact ⟨[], by simp [settleLoop], by simp,
        fun name => by rw [netTo_nil, balTo_nil]⟩
    | cons x t => simp at hlen
  | succ fuel ih =>
    intro bs acc hlen hb hs
    cases bs with
    | nil =>
      exact ⟨[], by simp [settleLoop], by simp,
        fun name => by rw [netTo_nil, balTo_nil]⟩
    | cons payee rest0 =>
      cases rest0 with
      | nil =>
        -- a single member with nonzero balance contradicts the zero total
        exfalso
        obtain ⟨pos, neg, heq, hposl, hnegl⟩ := hb
        have hmem : payee ∈ pos ++ neg := by
          rw [← heq]
          exact List.mem_cons_self _ _
        have hs1 : payee.balance = 0 := by
          rw [sumBal_cons, sumBal_nil] at hs
          omega
        rcases List.mem_append.mp hmem with hmp | hmn
        · have := hposl payee hmp
          omega
        · have := hnegl payee hmn
          omega
      | cons b rest =>
        obtain ⟨pos, neg, heq, hposl, hnegl⟩ := hb
        cases pos with
        | nil =>
          exfalso
          rw [List.nil_append] at heq
          have hneg' : sumBal (payee :: b :: rest) < 0 := by
            rw [heq]
            exact sumBal_neg_of_all_neg neg hnegl (by rw [← heq]; simp)
          omega
        | cons p0 ptail =>
          rw [List.cons_append] at heq
          have hpayee0 : payee = p0 := (List.cons.injEq _ _ _ _ ▸ heq).1
          subst hpayee0
          have heq2 : b :: rest = ptail ++ neg := (List.cons.injEq _ _ _ _ ▸ heq).2
          have hpayeepos : 0 < payee.balance :=
            hposl payee (List.mem_cons_self _ _)
          cases neg with
          | nil =>
            exfalso
            rw [List.append_nil] at heq2
            have hallpos : ∀ x ∈ payee :: b :: rest, 0 < x.balance := by
              intro x hx
              rcases List.mem_cons.mp hx with rfl | hx
              · exact hpayeepos
              · rw [heq2] at hx
                exact hposl x (List.mem_cons_of_mem _ hx)
            have := sumBal_pos_of_all_pos _ hallpos (by simp)
            omega
          | cons n0 ntail =>
            have hnegne : (n0 :: ntail : List Balance) ≠ [] := by simp
            rw [settleLoop_step]
            set payer := (n0 :: ntail).getLast hnegne with hpayerdef
            have hpayerEq : (b :: rest).getLast (List.cons_ne_nil b rest) = payer := by
              rw [getLast_congr heq2, List.getLast_append]
              simp [hpayerdef]
            rw [hpayerEq]
            have hpayermem : payer ∈ n0 :: ntail := List.getLast_mem hnegne
            have hpayerneg : payer.balance < 0 := hnegl payer hpayermem
            have hnegsplit : (n0 :: ntail).dropLast ++ [payer] = n0 :: ntail :=
              List.dropLast_append_getLast hnegne
            have hmidEq : (b :: rest).dropLast = ptail ++ (n0 :: ntail).dropLast := by
              rw [heq2, List.dropLast_append_of_ne_nil _ hnegne]
            rw [hmidEq]
            set nd := (n0 :: ntail).dropLast with hnddef
            set m : ℤ := min (abs payee.balance) (abs payer.balance) with hmdef
            have hm' : m = min payee.balance (-payer.balance) := by
              rw [hmdef, abs_of_pos hpayeepos, abs_of_neg hpayerneg]
            have hm1 : m ≤ payee.balance := by
              rw [hm']
              exact min_le_left _ _
            have hm2 : m ≤ -payer.balance := by
              rw [hm']
              exact min_le_right _ _
            have hmpos : 0 < m := by
              rw [hm']
              exact lt_min hpayeepos (by omega)
            have hor : payee.balance - m = 0 ∨ payer.balance + m = 0 := by
              rw [hm']
              rcases le_total payee.balance (-payer.balance) with h | h
              · left
                rw [min_eq_left h]
                omega
              · right
                rw [min_eq_right h]
                omega
            -- expand the zero-sum hypothesis along the decomposition
            have hndlen : nd.length + 1 = ntail.length + 1 := by
              have := congrArg List.length hnegsplit
              simpa using this
            have hsx : payee.balance + (sumBal ptail + (sumBal nd + payer.balance)) = 0 := by
              have h1 : sumBal (payee :: b :: rest) =
                  payee.balance + (sumBal ptail + (sumBal nd + payer.balance)) := by
                rw [sumBal_cons, heq2, sumBal_append, ← hnegsplit, sumBal_append,
                  sumBal_cons, sumBal_nil]
                ring
              rw [h1] at hs
              exact hs
            -- the new state
            have hblocky1 : Blocky
                ((if payee.balance - m = 0 then []
                  else [{ payee with balance := payee.balance - m }]) ++
                  (ptail ++ nd) ++
                  (if payer.balance + m = 0 then []
                   else [{ payer with balance := payer.balance + m }])) := by
              refine ⟨(if payee.balance - m = 0 then []
                  else [{ payee with balance := payee.balance - m }]) ++ ptail,
                nd ++ (if payer.balance + m = 0 then []
                  else [{ payer with balance := payer.balance + m }]),
                by simp [List.append_assoc], ?_, ?_⟩
              · intro x hx
                rcases List.mem_append.mp hx with hx1 | hx2
                · obtain ⟨rfl, hne0⟩ := mem_opt _ _ _ hx1
                  show 0 < payee.balance - m
                  omega
                · exact hposl x (List.mem_cons_of_mem _ hx2)
              · intro x hx
                rcases List.mem_append.mp hx with hx1 | hx2
                · apply hnegl
                  rw [← hnegsplit]
                  exact List.mem_append_left _ hx1
                · obtain ⟨rfl, hne0⟩ := mem_opt _ _ _ hx2
                  show payer.balance + m < 0
                  omega
            have hsum1 : sumBal
                ((if payee.balance - m = 0 then []
                  else [{ payee with balance := payee.balance - m }]) ++
                  (ptail ++ nd) ++
                  (if payer.balance + m = 0 then []
                   else [{ payer with balance := payer.balance + m }])) = 0 := by
              rw [sumBal_append, sumBal_append, sumBal_append, sumBal_opt, sumBal_opt]
              show payee.balance - m + (sumBal ptail + sumBal nd) +
                (payer.balance + m) = 0
              omega
            have hlen1 : ((if payee.balance - m = 0 then []
                else [{ payee with balance := payee.balance - m }]) ++
                (ptail ++ nd) ++
                (if payer.balance + m = 0 then []
                 else [{ payer with balance := payer.balance + m }])).length ≤
                (payee :: b :: rest).length - 1 := by
              have hlb : (b :: rest).length = ptail.length + (ntail.length + 1) := by
                have := congrArg List.length heq2
                simpa using this
              rw [List.length_append, List.length_append, List.length_append,
                length_opt, length_opt]
              simp only [List.length_cons] at hlb ⊢
              rcases hor with h0 | h0
              · rw [if_pos h0]
                by_cases h1 : payer.balance + m = 0 <;>
                  [rw [if_pos h1]; rw [if_neg h1]] <;> omega
              · rw [if_pos h0]
                by_cases h1 : payee.balance - m = 0 <;>
                  [rw [if_pos h1]; rw [if_neg h1]] <;> omega
            obtain ⟨S', hrec, hlen', hnet'⟩ :=
              ih ((if payee.balance - m = 0 then []
                  else [{ payee with balance := payee.balance - m }]) ++
                  (ptail ++ nd) ++
                  (if payer.balance + m = 0 then []
                   else [{ payer with balance := payer.balance + m }]))
                (acc ++ [{ payer := payer.name, payee := payee.name, amount := m }])
                (by
                  have := hlen1
                  simp only [List.length_cons] at this hlen ⊢
                  omega)
                hblocky1 hsum1
            refine ⟨{ payer := payer.name, payee := payee.name, amount := m } :: S',
              ?_, ?_, ?_⟩
            · rw [hrec]
              simp
            · have := hlen1
              simp only [List.length_cons] at this ⊢
              omega
            · intro name
              rw [netTo_cons, hnet' name]
              -- expand both balance readings
              have hB : balTo (payee :: b :: rest) name =
                  (if payee.name = name then payee.balance else 0) +
                  (balTo ptail name + (balTo nd name +
                    (if payer.name = name then payer.balance else 0))) := by
                rw [balTo_cons, heq2, balTo_append, ← hnegsplit, balTo_append,
                  balTo_cons, balTo_nil]
                ring
              have hB1 : balTo
                  ((if payee.balance - m = 0 then []
                    else [{ payee with balance := payee.balance - m }]) ++
                    (ptail ++ nd) ++
                    (if payer.balance + m = 0 then []
                     else [{ payer with balance := payer.balance + m }])) name =
                  (if payee.name = name then payee.balance - m else 0) +
                  (balTo ptail name + (balTo nd name +
                    (if payer.name = name then payer.balance + m else 0))) := by
                rw [balTo_append, balTo_append, balTo_append, balTo_opt, balTo_opt]
                ring
              rw [hB, hB1]
              by_cases hn1 : payee.name = name <;> by_cases hn2 : payer.name = name <;>
                simp [hn1, hn2] <;> ring

end SettlementStep

section SettlementGlue

lemma sumBal_perm {l1 l2 : List Balance} (h : l1.Perm l2) :
    sumBal l1 = sumBal l2 :=
  (h.map Balance.balance).sum_eq

lemma balTo_perm {l1 l2 : List Balance} (h : l1.Perm l2) (name : String) :
    balTo l1 name = balTo l2 name := by
  unfold balTo
  exact (h.map _).sum_eq

lemma sumBal_filter (l : List Balance) :
    sumBal (l.filter fun b => decide (b.balance ≠ 0)) = sumBal l := by
  induction l with
  | nil => rfl
  | cons x t ih =>
    rw [List.filter_cons]
    by_cases hx : x.balance = 0
    · rw [if_neg (by simp [hx]), sumBal_cons, ih, hx]
      omega
    · rw [if_pos (by simp [hx]), sumBal_cons, sumBal_cons, ih]

lemma balTo_filter (l : List Balance) (name : String) :
    balTo (l.filter fun b => decide (b.balance ≠ 0)) name = balTo l name := by
  induction l with
  | nil => rfl
  | cons x t ih =>
    rw [List.filter_cons]
    by_cases hx : x.balance = 0
    · rw [if_neg (by simp [hx]), balTo_cons, ih]
      have : (if x.name = name then x.balance else 0) = 0 := by
        rw [hx]
        simp
      omega
    · rw [if_pos (by simp [hx]), balTo_cons, balTo_cons, ih]

lemma balTo_eq_zero_of_not_mem (l : List Balance) (name : String)
    (h : name ∉ l.map Balance.name) : balTo l name = 0 := by
  induction l with
  | nil => rfl
  | cons x t ih =>
    rw [balTo_cons]
    have hx : ¬ (x.name = name) := by
      intro hc
      exact h (by rw [← hc]; exact List.mem_map_of_mem _ (List.mem_cons_self x t))
    rw [if_neg hx, ih (fun hc => h (by simpa using Or.inr (by simpa using hc)))]
    omega

lemma balTo_eq_of_nodup (l : List Balance)
    (hnd : (l.map Balance.name).Nodup) (b : Balance) (hb : b ∈ l) :
    balTo l b.name = b.balance := by
  induction l with
  | nil => cases hb
  | cons x t ih =>
    have hcons : x.name ∉ t.map Balance.name ∧ (t.map Balance.name).Nodup := by
      rw [List.map_cons] at hnd
      exact List.nodup_cons.mp hnd
    rw [balTo_cons]
    rcases List.mem_cons.mp hb with rfl | hb2
    · rw [if_pos rfl, balTo_eq_zero_of_not_mem t b.name hcons.1]
      omega
    · have hx : ¬ (x.name = b.name) := by
        intro hc
        exact hcons.1 (hc ▸ List.mem_map_of_mem _ hb2)
      rw [if_neg hx, ih hcons.2 hb2]
      omega

lemma settle_eq (balances : List Balance) :
    settle balances = settleLoop
      ((balances.filter fun b => decide (b.balance ≠ 0)).mergeSort
        fun a b => decide (b.balance ≤ a.balance)).length
      ((balances.filter fun b => decide (b.balance ≠ 0)).mergeSort
        fun a b => decide (b.balance ≤ a.balance)) [] :=
  rfl

/-- Shared preparation for the settlement claims: on ledger-invariant input
(total balance zero), the filtered, sorted state is blocky, sums to zero,
has the length of the nonzero-balance member list, and carries the same
per-name balances as the input. -/
lemma settle_setup (balances : List Balance) (hsum : sumBal balances = 0) :
    Blocky ((balances.filter fun b => decide (b.balance ≠ 0)).mergeSort
      fun a b => decide (b.balance ≤ a.balance)) ∧
    sumBal ((balances.filter fun b => decide (b.balance ≠ 0)).mergeSort
      fun a b => decide (b.balance ≤ a.balance)) = 0 ∧
    ((balances.filter fun b => decide (b.balance ≠ 0)).mergeSort
      fun a b => decide (b.balance ≤ a.balance)).length =
      (balances.filter fun b => decide (b.balance ≠ 0)).length ∧
    ∀ name, balTo ((balances.filter fun b => decide (b.balance ≠ 0)).mergeSort
      fun a b => decide (b.balance ≤ a.balance)) name = balTo balances name := by
  have hperm := List.mergeSort_perm (balances.filter fun b => decide (b.balance ≠ 0))
    (fun a b => decide (b.balance ≤ a.balance))
  have hsorted := @List.sorted_mergeSort Balance
    (fun a b => decide (b.balance ≤ a.balance))
    (fun a b c hab hbc => by
      simp only [decide_eq_true_iff] at hab hbc ⊢
      omega)
    (fun a b => by
      simp only [Bool.or_eq_true, decide_eq_true_iff]
      omega)
    (balances.filter fun b => decide (b.balance ≠ 0))
  refine ⟨?_, ?_, hperm.length_eq, ?_⟩
  · apply blocky_of_sorted_nonzero
    · exact hsorted.imp fun {a b} hab => by
        rw [decide_eq_true_iff] at hab
        exact hab
    · intro b hb
      have hb2 := hperm.mem_iff.mp hb
      have := (List.mem_filter.mp hb2).2
      rw [decide_eq_true_iff] at this
      exact this
  · rw [sumBal_perm hperm, sumBal_filter]
    exact hsum
  · intro name
    rw [balTo_perm hperm name, balTo_filter]

end SettlementGlue

section ClaimSettlement

/-- Claim C2: for every balance list of integers summing to zero (with
pairwise distinct member names), the settlement computation succeeds and
returns a transfer list that, per member, pays the member exactly its
balance: the sum of amounts where the member is payee minus the sum of
amounts where it is payer equals the member's original balance. -/
theorem C2_settlement_cancels_balances (balances : List Balance)
    (hsum : sumBal balances = 0)
    (hnd : (balances.map Balance.name).Nodup) :
    ∃ S final, settle balances = some (S, final) ∧
      ∀ b ∈ balances, netTo S b.name = b.balance := by
  obtain ⟨hblocky, hsum0, hlen, hbal⟩ := settle_setup balances hsum
  obtain ⟨S, hrec, _, hnet⟩ := settleLoop_master _ _ [] (le_refl _) hblocky hsum0
  refine ⟨S, [], by rw [settle_eq, hrec]; simp, ?_⟩
  intro b hb
  rw [hnet b.name, hbal b.name, balTo_eq_of_nodup balances hnd b hb]

/-- Witness for C2, on the spec's example ledger A: 500, B: -300, C: -200. -/
theorem C2_settlement_cancels_balances_witness :
    ∃ S final,
      settle [⟨"A", 500⟩, ⟨"B", -300⟩, ⟨"C", -200⟩] = some (S, final) ∧
      ∀ b ∈ [(⟨"A", 500⟩ : Balance), ⟨"B", -300⟩, ⟨"C", -200⟩],
        netTo S b.name = b.balance :=
  C2_settlement_cancels_balances [⟨"A", 500⟩, ⟨"B", -300⟩, ⟨"C", -200⟩]
    (by decide) (by decide)

/-- Claim C5: for every balance list summing to zero with `n` members of
nonzero balance, the settlement computation returns at most `n - 1`
transfers. -/
theorem C5_transfer_count_bound (balances : List Balance)
    (hsum : sumBal balances = 0) :
    ∃ S final, settle balances = some (S, final) ∧
      S.length ≤ (balances.filter fun b => decide (b.balance ≠ 0)).length - 1 := by
  obtain ⟨hblocky, hsum0, hlen, _⟩ := settle_setup balances hsum
  obtain ⟨S, hrec, hcount, _⟩ := settleLoop_master _ _ [] (le_refl _) hblocky hsum0
  refine ⟨S, [], by rw [settle_eq, hrec]; simp, ?_⟩
  rw [← hlen]
  exact hcount

/-- Witness for C5. -/
theorem C5_transfer_count_bound_witness :
    ∃ S final,
      settle [⟨"A", 500⟩, ⟨"B", -300⟩, ⟨"C", -200⟩] = some (S, final) ∧
      S.length ≤ (([⟨"A", 500⟩, ⟨"B", -300⟩, ⟨"C", -200⟩] : List Balance).filter
        fun b => decide (b.balance ≠ 0)).length - 1 :=
  C5_transfer_count_bound [⟨"A", 500⟩, ⟨"B", -300⟩, ⟨"C", -200⟩] (by decide)

/-- Claim C8: for every balance list of integers summing to zero, the
settlement while-loop terminates (within `length` iterations, so the fuel
given by `settle` is never exhausted) and reaches a terminal state of `0`
or `1` remaining members, the lone survivor (if any) having balance `0`
(under the zero-sum precondition the terminal state is in fact empty). -/
theorem C8_loop_terminates (balances : List Balance)
    (hsum : sumBal balances = 0) :
    ∃ S final, settle balances = some (S, final) ∧ final.length ≤ 1 ∧
      ∀ b ∈ final, b.balance = 0 := by
  obtain ⟨hblocky, hsum0, _, _⟩ := settle_setup balances hsum
  obtain ⟨S, hrec, _, _⟩ := settleLoop_master _ _ [] (le_refl _) hblocky hsum0
  exact ⟨S, [], by rw [settle_eq, hrec]; simp, by simp, by simp⟩

/-- Witness for C8. -/
theorem C8_loop_terminates_witness :
    ∃ S final,
      settle [⟨"A", 500⟩, ⟨"B", -300⟩, ⟨"C", -200⟩] = some (S, final) ∧
      final.length ≤ 1 ∧ ∀ b ∈ final, b.balance = 0 :=
  C8_loop_terminates [⟨"A", 500⟩, ⟨"B", -300⟩, ⟨"C", -200⟩] (by decide)

end ClaimSettlement

section BalanceAggregator

/-- One `{weight, paid, owes}` record of a transaction's `contributions`
hash (the `hash` format of `getTransactions`), amounts in integer cents. -/
structure Contribution where
  weight : ℚ
  paid : ℤ
  owes : ℤ
deriving DecidableEq

/-- A transaction as consumed by `getBalance`: its expense type and its
per-member contributions hash. -/
structure TxView where
  expense_type : String
  contributions : List (String × Contribution)

/-- A member row (`name`, `active`) as read by `getBalance`. -/
structure MemberRec where
  name : String
  active : Bool
deriving DecidableEq

/-- One row of the balance report (integer cents; the `'dollars'` money
format of the handler only divides these by 100 for display). -/
structure BalanceEntry where
  name : String
  paid : ℤ
  owes : ℤ
  balance : ℤ
deriving DecidableEq

/-- `transaction.contributions[m]` — the JS hash lookup. -/
def lookupContribution (tx : TxView) (m : String) : Option Contribution :=
  (tx.contributions.find? fun p => decide (p.1 = m)).map Prod.snd

/-- The `paid` sum of `processMember` in `getBalance`
(`src/unnamed/part_001`): an income-type transaction contributes the
negation of the member's paid amount, any other type contributes it
unnegated, and a transaction without a contribution row for the member
contributes `0`. -/
def memberPaid (txs : List TxView) (m : String) : ℤ :=
  (txs.map fun tx =>
    match lookupContribution tx m with
    | some c => if tx.expense_type = "income" then -c.paid else c.paid
    | none => 0).sum

/-- The `owes` sum of `processMember`, with the same income sign flip. -/
def memberOwes (txs : List TxView) (m : String) : ℤ :=
  (txs.map fun tx =>
    match lookupContribution tx m with
    | some c => if tx.expense_type = "income" then -c.owes else c.owes
    | none => 0).sum

/-- `processMember`: an inactive member must have balance exactly `0`
(otherwise the assertion throws); an inactive member with zero balance
yields `undefined` (here `none`, filtered later); an active member yields
its report row. -/
def processMember (txs : List TxView) (member : MemberRec) :
    Except String (Option BalanceEntry) :=
  if member.active ≠ true then
    (if memberPaid txs member.name - memberOwes txs member.name ≠ 0 then
      Except.error "Assertion failure: inactive member has a non-zero balance. Please contact the maintainer."
    else Except.ok none)
  else Except.ok (some
    { name := member.name, paid := memberPaid txs member.name,
      owes := memberOwes txs member.name,
      balance := memberPaid txs member.name - memberOwes txs member.name })

/-- JS `array.map` whose callback can throw: the first thrown assertion
aborts the whole map. -/
def mapExcept (f : α → Except ε β) : List α → Except ε (List β)
  | [] => Except.ok []
  | x :: xs =>
    match f x with
    | Except.error e => Except.error e
    | Except.ok y =>
      match mapExcept f xs with
      | Except.error e => Except.error e
      | Except.ok ys => Except.ok (y :: ys)

/-- The pure computation of `getBalance` on the ledger's transactions and
member rows: `members.map (processMember).filter (m => m !== undefined)`,
with the assertion failure propagating out. -/
def getBalance (txs : List TxView) (members : List MemberRec) :
    Except String (List BalanceEntry) :=
  match mapExcept (processMember txs) members with
  | Except.error e => Except.error e
  | Except.ok l => Except.ok (l.filterMap id)

/-- The report row an active member produces. -/
def balanceRow (txs : List TxView) (m : MemberRec) : BalanceEntry :=
  { name := m.name, paid := memberPaid txs m.name,
    owes := memberOwes txs m.name,
    balance := memberPaid txs m.name - memberOwes txs m.name }

lemma processMember_active (txs : List TxView) (m : MemberRec)
    (hx : m.active = true) :
    processMember txs m = Except.ok (some (balanceRow txs m)) := by
  rw [processMember, if_neg (by simp [hx])]
  rfl

lemma processMember_inactive_zero (txs : List TxView) (m : MemberRec)
    (hx : m.active = false)
    (hz : memberPaid txs m.name - memberOwes txs m.name = 0) :
    processMember txs m = Except.ok none := by
  rw [processMember, if_pos (by simp [hx]), if_neg (by simpa using hz)]

lemma processMember_inactive_nonzero (txs : List TxView) (m : MemberRec)
    (hx : m.active = false)
    (hz : memberPaid txs m.name - memberOwes txs m.name ≠ 0) :
    processMember txs m = Except.error
      "Assertion failure: inactive member has a non-zero balance. Please contact the maintainer." := by
  rw [processMember, if_pos (by simp [hx]), if_pos (by simpa using hz)]

lemma getBalance_ok (txs : List TxView) :
    ∀ members : List MemberRec,
      (∀ m ∈ members, m.active = false →
        memberPaid txs m.name - memberOwes txs m.name = 0) →
      getBalance txs members = Except.ok
        ((members.filter fun m => m.active).map (balanceRow txs)) := by
  intro members
  induction members with
  | nil => intro _; rfl
  | cons x t ih =>
    intro hz
    have iht := ih fun m hm => hz m (List.mem_cons_of_mem x hm)
    rw [getBalance] at iht ⊢
    rw [mapExcept]
    cases hmt : mapExcept (processMember txs) t with
    | error e =>
      rw [hmt] at iht
      simp at iht
    | ok l =>
      rw [hmt] at iht
      have hl : l.filterMap id = (t.filter fun m => m.active).map (balanceRow txs) := by
        simpa using iht
      rw [List.filter_cons]
      cases hx : x.active with
      | true =>
        rw [processMember_active txs x hx]
        show Except.ok ((some (balanceRow txs x) :: l).filterMap id) = _
        rw [if_pos (by simp)]
        simp only [List.filterMap_cons, id, List.map_cons]
        rw [hl]
      | false =>
        rw [processMember_inactive_zero txs x hx (hz x (List.mem_cons_self x t) hx)]
        show Except.ok ((none :: l).filterMap id) = _
        rw [if_neg (by simp [hx])]
        simp only [List.filterMap_cons, id]
        rw [hl]

lemma getBalance_error (txs : List TxView) :
    ∀ members : List MemberRec,
      (∃ m ∈ members, m.active = false ∧
        memberPaid txs m.name - memberOwes txs m.name ≠ 0) →
      getBalance txs members = Except.error
        "Assertion failure: inactive member has a non-zero balance. Please contact the maintainer." := by
  intro members
  induction members with
  | nil =>
    intro h
    obtain ⟨m, hm, _⟩ := h
    cases hm
  | cons x t ih =>
    intro h
    rw [getBalance, mapExcept]
    by_cases hfail : x.active = false ∧
        memberPaid txs x.name - memberOwes txs x.name ≠ 0
    · rw [processMember_inactive_nonzero txs x hfail.1 hfail.2]
    · have hT : ∃ m ∈ t, m.active = false ∧
          memberPaid txs m.name - memberOwes txs m.name ≠ 0 := by
        obtain ⟨m, hm, hprop⟩ := h
        rcases List.mem_cons.mp hm with rfl | hmt
        · exact absurd hprop hfail
        · exact ⟨m, hmt, hprop⟩
      have ihe := ih hT
      rw [getBalance] at ihe
      have hok : ∃ y, processMember txs x = Except.ok y := by
        cases hx : x.active with
        | true => exact ⟨some (balanceRow txs x), processMember_active txs x hx⟩
        | false =>
          have hz : memberPaid txs x.name - memberOwes txs x.name = 0 := by
            by_contra hc
            exact hfail ⟨hx, hc⟩
          exact ⟨none, processMember_inactive_zero txs x hx hz⟩
      obtain ⟨y, hy⟩ := hok
      rw [hy]
      cases hmt : mapExcept (processMember txs) t with
      | ok l =>
        rw [hmt] at ihe
        simp at ihe
      | error e =>
        rw [hmt] at ihe
        simpa using ihe

end BalanceAggregator

section ClaimBalance

/-- Claim C4: in the balance computation, every inactive member whose
computed balance (paid minus owed, income sign adjustment included) is
exactly `0` is excluded from the returned sequence, and an inactive member
with any nonzero computed balance makes `getBalance` raise the fatal
internal-consistency assertion instead of returning; active members are
returned, in order, with their name, paid, owed and balance. -/
theorem C4_inactive_member_handling (txs : List TxView)
    (members : List MemberRec) :
    ((∀ m ∈ members, m.active = false →
        memberPaid txs m.name - memberOwes txs m.name = 0) →
      getBalance txs members = Except.ok
        ((members.filter fun m => m.active).map (balanceRow txs))) ∧
    ((∃ m ∈ members, m.active = false ∧
        memberPaid txs m.name - memberOwes txs m.name ≠ 0) →
      getBalance txs members = Except.error
        "Assertion failure: inactive member has a non-zero balance. Please contact the maintainer.") :=
  ⟨getBalance_ok txs members, getBalance_error txs members⟩

/-- Witness for C4: a ledger where the inactive member B has zero balance
(B is excluded from the report), and one where the inactive member A has a
nonzero balance (the assertion fires). -/
theorem C4_inactive_member_handling_witness :
    getBalance [TxView.mk "expense" [("A", ⟨1, 100, 100⟩)]]
        [MemberRec.mk "A" true, MemberRec.mk "B" false] =
      Except.ok ((([MemberRec.mk "A" true, MemberRec.mk "B" false]).filter
        fun m => m.active).map
          (balanceRow [TxView.mk "expense" [("A", ⟨1, 100, 100⟩)]])) ∧
    getBalance [TxView.mk "expense" [("A", ⟨1, 100, 40⟩)]]
        [MemberRec.mk "A" false] =
      Except.error
        "Assertion failure: inactive member has a non-zero balance. Please contact the maintainer." :=
  ⟨(C4_inactive_member_handling [TxView.mk "expense" [("A", ⟨1, 100, 100⟩)]]
      [MemberRec.mk "A" true, MemberRec.mk "B" false]).1 (by decide),
    (C4_inactive_member_handling [TxView.mk "expense" [("A", ⟨1, 100, 40⟩)]]
      [MemberRec.mk "A" false]).2 ⟨MemberRec.mk "A" false, by decide, by decide,
        by decide⟩⟩

/-- Claim C6: a transaction of expense type `income` contributes the
negation of a member's paid and owes values to the balance aggregation,
and any other expense type contributes them unnegated; consequently an
income transaction with `paid = [1000]`, `weight = [1]` for single member
X has apportioned owed shares `[1000]`, and contributes `paid = -1000`,
`owed = -1000` to X — a net contribution of zero. -/
theorem C6_income_sign_flip (tx : TxView) (m : String) (c : Contribution)
    (hc : lookupContribution tx m = some c) :
    (memberPaid [tx] m =
      (if tx.expense_type = "income" then -c.paid else c.paid) ∧
     memberOwes [tx] m =
      (if tx.expense_type = "income" then -c.owes else c.owes)) ∧
    (∀ draws : ℕ → ℕ,
      integerSplitByWeights 1000 [(1 : ℚ)] draws = Except.ok (liftZ [1000])) ∧
    (memberPaid [TxView.mk "income" [("X", ⟨1, 1000, 1000⟩)]] "X" = -1000 ∧
     memberOwes [TxView.mk "income" [("X", ⟨1, 1000, 1000⟩)]] "X" = -1000 ∧
     memberPaid [TxView.mk "income" [("X", ⟨1, 1000, 1000⟩)]] "X" -
       memberOwes [TxView.mk "income" [("X", ⟨1, 1000, 1000⟩)]] "X" = 0) := by
  refine ⟨⟨?_, ?_⟩, ?_, by decide, by decide, by decide⟩
  · simp [memberPaid, hc]
  · simp [memberOwes, hc]
  · intro draws
    obtain ⟨out, h1, h2, h3, _, _, _⟩ :=
      integerSplitByWeights_master 1000 [(1 : ℚ)] draws (by decide) (by decide)
        (by decide)
    obtain ⟨a, rfl⟩ := List.length_eq_one.mp (by simpa using h2)
    have ha : a = 1000 := by simpa using h3
    rw [ha] at h1
    exact h1

/-- Witness for C6, on an ordinary expense contribution. -/
theorem C6_income_sign_flip_witness :
    memberPaid [TxView.mk "expense" [("Y", ⟨1, 70, 30⟩)]] "Y" = 70 ∧
    memberOwes [TxView.mk "expense" [("Y", ⟨1, 70, 30⟩)]] "Y" = 30 := by
  have h := C6_income_sign_flip (TxView.mk "expense" [("Y", ⟨1, 70, 30⟩)]) "Y"
    ⟨1, 70, 30⟩ (by decide)
  exact ⟨h.1.1.trans (by decide), h.1.2.trans (by decide)⟩

end ClaimBalance

end Xpnz
